import Mathlib

/-!
# svg-embed-font: font resolution and embedding

A shallow embedding of `embed.go` and of the `embedTemplate` constant of `main.go`.

Go strings are modelled as lists of characters (`Str`), file contents as lists of bytes.
The file system, the command line and the directory walk are explicit inputs.
Go leaves the iteration order of `range` over a map unspecified; every loop whose
outcome can depend on that order takes the order as an explicit list of keys.
The directory walk is the list of the calls `filepath.Walk` makes with a non-nil `info`;
a call with a nil `info` makes the walk function panic, and such runs have no result.
-/

namespace SvgEmbedFont

/-- Go `string`, as its sequence of characters. -/
abbrev Str := List Char

/-- One byte of a file. -/
abbrev Byte := Fin 256

/-! ## Library functions used by the program -/

/-- Go `strings.Contains(s, substr)`. -/
def Contains : Str → Str → Bool
  | [], substr => substr.isEmpty
  | c :: cs, substr => substr.isPrefixOf (c :: cs) || Contains cs substr

/-- The lower-case mappings of the letters beyond ASCII, from the character database of
Unicode 14.0 (the simple mappings, which the table `unicode.CaseRanges` of Go holds): an
item `(lo, hi, step, target)` says that the characters `lo`, `lo + step`, ... up to `hi` are
mapped to `target`, `target + step`, ... -/
def lowerRanges : List (Nat × Nat × Nat × Nat) :=
  [(192, 214, 1, 224), (216, 222, 1, 248), (256, 302, 2, 257), (304, 304, 1, 105),
    (306, 310, 2, 307), (313, 327, 2, 314), (330, 374, 2, 331), (376, 376, 1, 255),
    (377, 381, 2, 378), (385, 385, 1, 595), (386, 388, 2, 387), (390, 390, 1, 596),
    (391, 391, 1, 392), (393, 394, 1, 598), (395, 395, 1, 396), (398, 398, 1, 477),
    (399, 399, 1, 601), (400, 400, 1, 603), (401, 401, 1, 402), (403, 403, 1, 608),
    (404, 404, 1, 611), (406, 406, 1, 617), (407, 407, 1, 616), (408, 408, 1, 409),
    (412, 412, 1, 623), (413, 413, 1, 626), (415, 415, 1, 629), (416, 420, 2, 417),
    (422, 422, 1, 640), (423, 423, 1, 424), (425, 425, 1, 643), (428, 428, 1, 429),
    (430, 430, 1, 648), (431, 431, 1, 432), (433, 434, 1, 650), (435, 437, 2, 436),
    (439, 439, 1, 658), (440, 440, 1, 441), (444, 444, 1, 445), (452, 452, 1, 454),
    (453, 453, 1, 454), (455, 455, 1, 457), (456, 456, 1, 457), (458, 458, 1, 460),
    (459, 475, 2, 460), (478, 494, 2, 479), (497, 497, 1, 499), (498, 500, 2, 499),
    (502, 502, 1, 405), (503, 503, 1, 447), (504, 542, 2, 505), (544, 544, 1, 414),
    (546, 562, 2, 547), (570, 570, 1, 11365), (571, 571, 1, 572), (573, 573, 1, 410),
    (574, 574, 1, 11366), (577, 577, 1, 578), (579, 579, 1, 384), (580, 580, 1, 649),
    (581, 581, 1, 652), (582, 590, 2, 583), (880, 882, 2, 881), (886, 886, 1, 887),
    (895, 895, 1, 1011), (902, 902, 1, 940), (904, 906, 1, 941), (908, 908, 1, 972),
    (910, 911, 1, 973), (913, 929, 1, 945), (931, 939, 1, 963), (975, 975, 1, 983),
    (984, 1006, 2, 985), (1012, 1012, 1, 952), (1015, 1015, 1, 1016), (1017, 1017, 1, 1010),
    (1018, 1018, 1, 1019), (1021, 1023, 1, 891), (1024, 1039, 1, 1104), (1040, 1071, 1, 1072),
    (1120, 1152, 2, 1121), (1162, 1214, 2, 1163), (1216, 1216, 1, 1231), (1217, 1229, 2, 1218),
    (1232, 1326, 2, 1233), (1329, 1366, 1, 1377), (4256, 4293, 1, 11520), (4295, 4295, 1, 11559),
    (4301, 4301, 1, 11565), (5024, 5103, 1, 43888), (5104, 5109, 1, 5112), (7312, 7354, 1, 4304),
    (7357, 7359, 1, 4349), (7680, 7828, 2, 7681), (7838, 7838, 1, 223), (7840, 7934, 2, 7841),
    (7944, 7951, 1, 7936), (7960, 7965, 1, 7952), (7976, 7983, 1, 7968), (7992, 7999, 1, 7984),
    (8008, 8013, 1, 8000), (8025, 8031, 2, 8017), (8040, 8047, 1, 8032), (8072, 8079, 1, 8064),
    (8088, 8095, 1, 8080), (8104, 8111, 1, 8096), (8120, 8121, 1, 8112), (8122, 8123, 1, 8048),
    (8124, 8124, 1, 8115), (8136, 8139, 1, 8050), (8140, 8140, 1, 8131), (8152, 8153, 1, 8144),
    (8154, 8155, 1, 8054), (8168, 8169, 1, 8160), (8170, 8171, 1, 8058), (8172, 8172, 1, 8165),
    (8184, 8185, 1, 8056), (8186, 8187, 1, 8060), (8188, 8188, 1, 8179), (8486, 8486, 1, 969),
    (8490, 8490, 1, 107), (8491, 8491, 1, 229), (8498, 8498, 1, 8526), (8544, 8559, 1, 8560),
    (8579, 8579, 1, 8580), (9398, 9423, 1, 9424), (11264, 11311, 1, 11312),
    (11360, 11360, 1, 11361), (11362, 11362, 1, 619), (11363, 11363, 1, 7549),
    (11364, 11364, 1, 637), (11367, 11371, 2, 11368), (11373, 11373, 1, 593),
    (11374, 11374, 1, 625), (11375, 11375, 1, 592), (11376, 11376, 1, 594),
    (11378, 11378, 1, 11379), (11381, 11381, 1, 11382), (11390, 11391, 1, 575),
    (11392, 11490, 2, 11393), (11499, 11501, 2, 11500), (11506, 11506, 1, 11507),
    (42560, 42604, 2, 42561), (42624, 42650, 2, 42625), (42786, 42798, 2, 42787),
    (42802, 42862, 2, 42803), (42873, 42875, 2, 42874), (42877, 42877, 1, 7545),
    (42878, 42886, 2, 42879), (42891, 42891, 1, 42892), (42893, 42893, 1, 613),
    (42896, 42898, 2, 42897), (42902, 42920, 2, 42903), (42922, 42922, 1, 614),
    (42923, 42923, 1, 604), (42924, 42924, 1, 609), (42925, 42925, 1, 620),
    (42926, 42926, 1, 618), (42928, 42928, 1, 670), (42929, 42929, 1, 647),
    (42930, 42930, 1, 669), (42931, 42931, 1, 43859), (42932, 42946, 2, 42933),
    (42948, 42948, 1, 42900), (42949, 42949, 1, 642), (42950, 42950, 1, 7566),
    (42951, 42953, 2, 42952), (42960, 42960, 1, 42961), (42966, 42968, 2, 42967),
    (42997, 42997, 1, 42998), (65313, 65338, 1, 65345), (66560, 66599, 1, 66600),
    (66736, 66771, 1, 66776), (66928, 66938, 1, 66967), (66940, 66954, 1, 66979),
    (66956, 66962, 1, 66995), (66964, 66965, 1, 67003), (68736, 68786, 1, 68800),
    (71840, 71871, 1, 71872), (93760, 93791, 1, 93792), (125184, 125217, 1, 125218)]

/-- Go `unicode.ToLower(r)`: the ASCII capitals, and the letters of `lowerRanges`. -/
def toLowerRune (c : Char) : Char :=
  if c.toNat < 128 then c.toLower
  else
    match lowerRanges.find?
        (fun r => r.1 ≤ c.toNat && c.toNat ≤ r.2.1 && (c.toNat - r.1) % r.2.2.1 == 0) with
    | some r => Char.ofNat (r.2.2.2 + (c.toNat - r.1))
    | none => c

/-- Go `strings.ToLower(s)`: every character mapped by `unicode.ToLower`. -/
def ToLower (s : Str) : Str := s.map toLowerRune

/-- Worker of `Replace`: `n` is the number of replacements still allowed (`none`: no limit),
`skip` the number of characters of a matched `old` still to be dropped. -/
def replaceAux (old new : Str) : Option Nat → Nat → Str → Str
  | _, _, [] => []
  | n, skip + 1, _ :: cs => replaceAux old new n skip cs
  | n, 0, c :: cs =>
    if n ≠ some 0 ∧ old.isPrefixOf (c :: cs) then
      new ++ replaceAux old new (n.map Nat.pred) (old.length - 1) cs
    else
      c :: replaceAux old new n 0 cs

/-- Go `strings.Replace(s, old, new, n)` for a non-empty `old`: the first `n` non-overlapping
occurrences of `old` are replaced, all of them when `n < 0`. -/
def Replace (s old new : Str) (n : Int) : Str :=
  replaceAux old new (if n < 0 then none else some n.toNat) 0 s

/-- Go `strings.Trim(s, cutset)`: leading and trailing characters of `cutset` removed. -/
def Trim (s cutset : Str) : Str :=
  ((s.dropWhile (fun c => cutset.contains c)).reverse.dropWhile (fun c => cutset.contains c)).reverse

/-- Go `path.Split(p)`, second result: what follows the final slash. -/
def Split (p : Str) : Str :=
  (p.reverse.takeWhile (fun c => c != '/')).reverse

/-- The submatch of `(.*?);` at the start of the text: the characters before the first `;`,
none of which is a newline, and the text after that `;`. -/
def lazyValue : Str → Option (Str × Str)
  | [] => none
  | c :: cs =>
    if c = ';' then some ([], cs)
    else if c = '\n' then none
    else match lazyValue cs with
      | some (v, rest) => some (c :: v, rest)
      | none => none

/-- The literal prefix of the regular expression `font-family:(.*?);`. -/
def reLiteral : Str := "font-family:".toList

/-- Leftmost non-overlapping matches of `font-family:(.*?);` in the text, each given by its
submatch 1. `fuel` bounds the number of positions visited. -/
def findAllFuel : Nat → Str → List Str
  | 0, _ => []
  | _, [] => []
  | fuel + 1, c :: cs =>
    if reLiteral.isPrefixOf (c :: cs) then
      match lazyValue ((c :: cs).drop reLiteral.length) with
      | some (v, rest) => v :: findAllFuel fuel rest
      | none => findAllFuel fuel cs
    else findAllFuel fuel cs

/-- Go `regexp.MustCompile("font-family:(.*?);").FindAllStringSubmatch(s, -1)`, submatch 1 of
each match. -/
def FindAllStringSubmatch (s : Str) : List Str := findAllFuel s.length s

/-! ## Base64 (`encoding/base64`, `StdEncoding`) -/

/-- The alphabet of the standard encoding. -/
def encodeStd : Str := "ABCDEFGHIJKLMNOPQRSTUVWXYZabcdefghijklmnopqrstuvwxyz0123456789+/".toList

/-- The character of a six-bit value. -/
def encChar (n : Nat) : Char := encodeStd.getD n 'A'

/-- Go `base64.StdEncoding.EncodeToString(data)`: three bytes give four characters, a final
group of one or two bytes is padded with `=`. -/
def EncodeToString : List Byte → Str
  | [] => []
  | [a] => [encChar (a.val / 4), encChar (a.val % 4 * 16), '=', '=']
  | [a, b] => [encChar (a.val / 4), encChar (a.val % 4 * 16 + b.val / 16),
      encChar (b.val % 16 * 4), '=']
  | a :: b :: c :: rest =>
    encChar (a.val / 4) :: encChar (a.val % 4 * 16 + b.val / 16) ::
      encChar (b.val % 16 * 4 + c.val / 64) :: encChar (c.val % 64) :: EncodeToString rest

/-- The six-bit value of a character of the standard alphabet (RFC 4648, table 1). -/
def decChar (c : Char) : Option Nat :=
  let i := encodeStd.indexOf c
  if i < 64 then some i else none

/-- Decoding of standard padded Base64 as RFC 4648 describes it: groups of four alphabet
characters give three bytes; the final group may end in `=` (two bytes) or `==` (one byte).
Text that is not of this form has no decoding. `fuel` bounds the number of groups. -/
def decodeStdFuel : Nat → Str → Option (List Byte)
  | _, [] => some []
  | 0, _ => none
  | fuel + 1, c0 :: c1 :: c2 :: c3 :: rest =>
    match decChar c0, decChar c1 with
    | some x0, some x1 =>
      if rest = [] ∧ c2 = '=' ∧ c3 = '=' then
        some [Fin.ofNat ((x0 * 4 + x1 / 16) % 256)]
      else match decChar c2 with
        | some x2 =>
          if rest = [] ∧ c3 = '=' then
            some [Fin.ofNat ((x0 * 4 + x1 / 16) % 256), Fin.ofNat ((x1 % 16 * 16 + x2 / 4) % 256)]
          else match decChar c3, decodeStdFuel fuel rest with
            | some x3, some bs =>
              some (Fin.ofNat ((x0 * 4 + x1 / 16) % 256) ::
                Fin.ofNat ((x1 % 16 * 16 + x2 / 4) % 256) ::
                Fin.ofNat ((x2 % 4 * 64 + x3) % 256) :: bs)
            | _, _ => none
        | none => none
    | _, _ => none
  | _ + 1, _ => none

/-- Decoding of standard padded Base64 (RFC 4648). -/
def decodeStd (s : Str) : Option (List Byte) := decodeStdFuel s.length s

/-! ## The escapers `html/template` applies to the two actions of `embedTemplate` -/

/-- `isHex` of `html/template`. -/
def isHex (c : Char) : Bool :=
  ('0' ≤ c ∧ c ≤ '9') || ('a' ≤ c ∧ c ≤ 'f') || ('A' ≤ c ∧ c ≤ 'F')

/-- `isCSSSpace` of `html/template`. -/
def isCSSSpace (c : Char) : Bool :=
  c = '\t' || c = '\n' || c = Char.ofNat 12 || c = '\r' || c = ' '

/-- `cssReplacementTable` of `html/template`. -/
def cssReplacementTable (c : Char) : Option Str :=
  match c.toNat with
  | 0 => some "\\0".toList
  | 9 => some "\\9".toList
  | 10 => some "\\a".toList
  | 12 => some "\\c".toList
  | 13 => some "\\d".toList
  | 34 => some "\\22".toList
  | 38 => some "\\26".toList
  | 39 => some "\\27".toList
  | 40 => some "\\28".toList
  | 41 => some "\\29".toList
  | 43 => some "\\2b".toList
  | 47 => some "\\2f".toList
  | 58 => some "\\3a".toList
  | 59 => some "\\3b".toList
  | 60 => some "\\3c".toList
  | 62 => some "\\3e".toList
  | 92 => some "\\\\".toList
  | 123 => some "\\7b".toList
  | 125 => some "\\7d".toList
  | _ => none

/-- `cssEscaper` of `html/template`: the characters of the table are replaced by their
escapes; an escape other than the doubled backslash is followed by a blank when the text
ends there or goes on with a hexadecimal digit or CSS white space. -/
def cssEscaper : Str → Str
  | [] => []
  | c :: cs =>
    match cssReplacementTable c with
    | some repl =>
      repl ++
        (if repl ≠ "\\\\".toList ∧
            (cs.isEmpty ∨ (cs.head?.map isHex = some true) ∨ (cs.head?.map isCSSSpace = some true))
          then [' '] else []) ++ cssEscaper cs
    | none => c :: cssEscaper cs

/-- Case folding of `strings.EqualFold` on the letters of `http`, `https` and `mailto`: the
ASCII capitals, and the long s, which folds to `s`. -/
def foldRune (c : Char) : Char := if c = Char.ofNat 383 then 's' else c.toLower

/-- Go `strings.EqualFold(s, t)` for an ASCII lower-case `t`. -/
def EqualFold (s t : Str) : Bool := s.map foldRune == t

/-- `isSafeURL` of `html/template`: a text with a colon whose part before the first colon
has no slash must have the protocol `http`, `https` or `mailto`. -/
def isSafeURL (s : Str) : Bool :=
  let protocol := s.takeWhile (fun c => c != ':')
  if s.contains ':' ∧ ¬ protocol.contains '/' then
    EqualFold protocol "http".toList || EqualFold protocol "https".toList ||
      EqualFold protocol "mailto".toList
  else true

/-- `urlFilter` of `html/template` on a plain string. -/
def urlFilter (s : Str) : Str := if isSafeURL s then s else "#ZgotmplZ".toList

/-- The UTF-8 bytes of a character. -/
def utf8 (c : Char) : List Nat :=
  let n := c.toNat
  if n < 128 then [n]
  else if n < 2048 then [192 + n / 64, 128 + n % 64]
  else if n < 65536 then [224 + n / 4096, 128 + n / 64 % 64, 128 + n % 64]
  else [240 + n / 262144, 128 + n / 4096 % 64, 128 + n / 64 % 64, 128 + n % 64]

/-- A hexadecimal digit, lower case. -/
def hexDigit (n : Nat) : Char := "0123456789abcdef".toList.getD n '0'

/-- The `%%%02x` escape of a byte. -/
def pctEscape (b : Nat) : Str := ['%', hexDigit (b / 16), hexDigit (b % 16)]

/-- `urlNormalizer` of `html/template` (`processURLOnto` with `norm = true`): reserved and
unreserved characters and valid `%xx` escapes are kept, every other byte is escaped. -/
def urlNormalizer : Str → Str
  | [] => []
  | c :: cs =>
    (if "!#$&*+,/:;=?@[]-._~".toList.contains c || c.isAlphanum then [c]
     else if c = '%' ∧ (cs.head?.map isHex = some true) ∧ ((cs.drop 1).head?.map isHex = some true)
       then [c]
     else ((utf8 c).map pctEscape).flatten) ++ urlNormalizer cs

/-! ## Data model (`embed.go`) -/

/-- Font is a single font family and associated Base64 encoded font file. -/
structure Font where
  Family : Str
  CmdLineSet : Bool
  EncodedFont : Str
  File : Str
  deriving DecidableEq, Repr, Inhabited

/-- The zero value of `Font`, which indexing a map with an absent key yields. -/
def Font.zero : Font := ⟨[], false, [], []⟩

/-- Document represents an SVG document containing one or more fonts. -/
structure Document where
  Fonts : List Font
  deriving DecidableEq, Repr

/-- Add will add a new font definition to the document. -/
def Document.Add (d : Document) (f : Font) : Document := ⟨d.Fonts ++ [f]⟩

/-- FontMap is a map of the font-family to a font specification: the entries, one per key. -/
abbrev FontMap := List (Str × Font)

/-- The keys of the map. -/
def FontMap.keys (fm : FontMap) : List Str := fm.map Prod.fst

/-- Go `fm[k]` as an expression: the entry of `k`, the zero value when there is none. -/
def FontMap.index : FontMap → Str → Font
  | [], _ => Font.zero
  | (k', v) :: rest, k => if k' = k then v else FontMap.index rest k

/-- Go `fm[k] = v`: the entry of `k` is replaced, or added when there is none. -/
def FontMap.assign : FontMap → Str → Font → FontMap
  | [], k, v => [(k, v)]
  | (k', v') :: rest, k, v =>
    if k' = k then (k, v) :: rest else (k', v') :: FontMap.assign rest k v

/-! ## The template (`main.go`) -/

/-- The body of `range .Fonts` in `embedTemplate` up to the action `.Family`; the white space
before `range` and before `end` is trimmed by the `-` markers. -/
def ruleHead : Str :=
  "\n\t\t<style type=\"text/css\">\n\t\t<![CDATA[\n\t\t@font-face \x7b\n\t\t\tfont-family: '".toList

/-- The text of `embedTemplate` between the actions `.Family` and `.EncodedFont`. -/
def ruleMid : Str := "';\n\t\t\tsrc: url('data:application/x-font-ttf;base64,".toList

/-- The text of `embedTemplate` from the action `.EncodedFont` to the trimmed `end`. -/
def ruleTail : Str := "');\n\t\t\t\x7d\n\t\t]]>\n\t\t</style>".toList

/-- The text of `embedTemplate` after `end`. -/
def templateTail : Str := "\n\t</defs>\n\t".toList

/-- One execution of the body of `range .Fonts`. `.Family` stands in a CSS string, where
`html/template` applies the URL filter and the CSS escaper; `.EncodedFont` stands in a CSS
URL after other text, where it applies the URL normalizer. -/
def renderFont (f : Font) : Str :=
  ruleHead ++ cssEscaper (urlFilter f.Family) ++ ruleMid ++ urlNormalizer f.EncodedFont ++ ruleTail

/-- Execution of the parsed `embedTemplate` on a document (`t.Execute(buf, doc)`); it has no
failing step. -/
def Execute (doc : Document) : Str := (doc.Fonts.map renderFont).flatten ++ templateTail

/-! ## The environment of a run -/

/-- One call of the walk function by `filepath.Walk` with a non-nil `info`: a call for a file
that is not a directory, where `err` is nil, or a call for a directory, where `err` is set
when the directory could not be read. After a failed `Lstat`, `filepath.Walk` calls the walk
function with a nil `info`; the walk function then panics at `info.IsDir()` and the run
returns nothing. Such a call is not a value of this type: the model has the runs in which
every call of the walk function returns. -/
inductive Visit where
  | file (p : Str)
  | dir (p : Str) (err : Bool)
  deriving DecidableEq, Repr

/-- The `path` argument of the call. -/
def Visit.p : Visit → Str
  | .file p => p
  | .dir p _ => p

/-- The value of `info.IsDir()` at the call. -/
def Visit.IsDir : Visit → Bool
  | .file _ => false
  | .dir _ _ => true

/-- Whether the `err` argument of the call is non-nil. -/
def Visit.err : Visit → Bool
  | .file _ => false
  | .dir _ err => err

/-- What a run reads from outside: the command line, the file system, and the calls
`filepath.Walk` makes for a base directory. `Stat p` is `some msg` when `os.Stat(p)` gives
an error for which `os.IsNotExist` holds; `ReadFile` gives the bytes or the error text;
`Join` is `path.Join`. -/
structure OS where
  Args : List Str
  Join : Str → Str → Str
  Stat : Str → Option Str
  ReadFile : Str → Except Str (List Byte)
  Walk : Str → List Visit

/-- The orders in which the Go runtime yields the keys of the font map, one for each
execution of a `range` loop whose outcome can depend on it: the loop of
`ProcessCmdLineFonts` for the i-th file, the loop of the walk function at its i-th call, the
loop of `FindEmbedFonts` that reports an unresolved family, and the loop of `Embed`. -/
structure RangeOrders where
  cmdLine : Nat → List Str
  walk : Nat → List Str
  report : List Str
  embed : List Str

/-- An order a `range` loop over `fm` can really take: every key once. -/
@[reducible] def FontMap.IsOrder (fm : FontMap) (order : List Str) : Prop := order.Perm fm.keys

/-- Range orders a run starting from the table `fm` can really take: each of them yields
every key of the table once. -/
def RangeOrders.Valid (ro : RangeOrders) (fm : FontMap) : Prop :=
  (∀ i, fm.IsOrder (ro.cmdLine i)) ∧ (∀ i, fm.IsOrder (ro.walk i)) ∧
    fm.IsOrder ro.report ∧ fm.IsOrder ro.embed

/-! ## The program (`embed.go`) -/

/-- The match test of both passes: the lower-cased file name contains the lower-cased family
name with its blanks removed (`embed.go` lines 94-95 and 145-146). -/
def matchesFamily (f family : Str) : Bool :=
  let familyT := Replace family " ".toList [] (-1)
  Contains (ToLower f) (ToLower familyT)

/-- The loop `for family := range fm` of `ProcessCmdLineFonts` for one font file, over the
families in the order given. -/
def cmdLineLoop (os : OS) (p fontFile : Str) : List Str → FontMap → FontMap × Option Str
  | [], fm => (fm, none)
  | family :: rest, fm =>
    if matchesFamily fontFile family then
      match os.ReadFile p with
      | .error err => (fm, some err)
      | .ok data =>
        cmdLineLoop os p fontFile rest
          (fm.assign family
            { Family := family, CmdLineSet := true, File := fontFile,
              EncodedFont := EncodeToString data })
    else cmdLineLoop os p fontFile rest fm

/-- The loop over the font files of `ProcessCmdLineFonts`, from the i-th file on. -/
def cmdLineFrom (os : OS) (ord : Nat → List Str) (baseDir : Str) :
    Nat → List Str → FontMap → FontMap × Option Str
  | _, [], fm => (fm, none)
  | i, fontFile :: rest, fm =>
    let p := os.Join baseDir fontFile
    match os.Stat p with
    | some err => (fm, some err)
    | none =>
      match cmdLineLoop os p fontFile (ord i) fm with
      | (fm1, some err) => (fm1, some err)
      | (fm1, none) => cmdLineFrom os ord baseDir (i + 1) rest fm1

/-- ProcessCmdLineFonts will embed any fonts specified on the command line in the SVG before
looking for others in the file system. The result is the map as the call leaves it and the
error returned. -/
def ProcessCmdLineFonts (os : OS) (ord : Nat → List Str) (fm : FontMap) (fonts : List Str)
    (baseDir : Str) : FontMap × Option Str :=
  cmdLineFrom os ord baseDir 0 fonts fm

/-- CheckAllFontsSet will determine if all fonts have been resolved to associated font
files. The answer does not depend on the order of the loop. -/
def CheckAllFontsSet (fm : FontMap) : Bool :=
  fm.all (fun e => ¬ (e.2.EncodedFont.length = 0))

/-- Embed puts the encoded fonts within the `<defs>` section of the SVG. -/
def Embed (order : List Str) (fm : FontMap) (svg : Str) : Str × Option Str :=
  let doc := order.foldl (fun d family => d.Add (fm.index family)) (Document.mk [])
  let buf := Execute doc
  (Replace svg "</defs>".toList buf 1, none)

/-- The text of the error for a second matching file. -/
def multipleError (family file f : Str) : Str :=
  "Multiple font files found as a match to font-family: ".toList ++ family ++ " (".toList ++
    file ++ ", ".toList ++ f ++ ")".toList

/-- The loop `for family := range fm` of the walk function for the file `f` at path `p`. -/
def walkLoop (os : OS) (p f : Str) : List Str → FontMap → FontMap × Option Str
  | [], fm => (fm, none)
  | family :: rest, fm =>
    if matchesFamily f family then
      if (fm.index family).CmdLineSet then (fm, none)
      else
        match os.ReadFile p with
        | .error err => (fm, some err)
        | .ok data =>
          if (fm.index family).EncodedFont.length > 0 then
            (fm, some (multipleError family (fm.index family).File f))
          else
            walkLoop os p f rest
              (fm.assign family
                { Family := family, CmdLineSet := true, File := f,
                  EncodedFont := EncodeToString data })
    else walkLoop os p f rest fm

/-- The function `genWalkFunc(fm)` returns, at one call: `if (info.IsDir()) || (err != nil)`
returns nil at once, which is the case of every call for a directory; a file is tested
against the families. -/
def genWalkFunc (os : OS) (order : List Str) (fm : FontMap) (v : Visit) : FontMap × Option Str :=
  if v.IsDir ∨ v.err then (fm, none)
  else walkLoop os v.p (Split v.p) order fm

/-- The calls of the walk function by `filepath.Walk`, from the i-th on: the first error
ends the walk. -/
def walkFrom (os : OS) (ord : Nat → List Str) : Nat → List Visit → FontMap → FontMap × Option Str
  | _, [], fm => (fm, none)
  | i, v :: vs, fm =>
    match genWalkFunc os (ord i) fm v with
    | (fm1, some err) => (fm1, some err)
    | (fm1, none) => walkFrom os ord (i + 1) vs fm1

/-- Walk walks the file system looking for font files that match the font-families in the
document. -/
def Walk (os : OS) (ord : Nat → List Str) (fm : FontMap) (baseDir : Str) : FontMap × Option Str :=
  walkFrom os ord 0 (os.Walk baseDir) fm

/-- The body of the first loop of `FindEmbedFonts` for one match: the trimmed value becomes a
key unless it is one of the two generic names. -/
def extractStep (fonts : FontMap) (m : Str) : FontMap :=
  let name := Trim m " '\"\t\n\r".toList
  if name = "sans-serif".toList ∨ name = "serif".toList then fonts
  else fonts.assign name { Family := name, CmdLineSet := false, File := [], EncodedFont := [] }

/-- The first loop of `FindEmbedFonts`: the table of the families named in the SVG text. -/
def extractFonts (svg : Str) : FontMap :=
  (FindAllStringSubmatch svg).foldl extractStep []

/-- The command-line pass of `FindEmbedFonts`, run when `len(os.Args) > 2`. -/
def cmdLinePass (os : OS) (ro : RangeOrders) (fonts : FontMap) (dir : Str) :
    FontMap × Option Str :=
  if os.Args.length > 2 then ProcessCmdLineFonts os ro.cmdLine fonts (os.Args.drop 2) dir
  else (fonts, none)

/-- The text of the error for a family without a font file. -/
def noMatchError (family : Str) : Str :=
  "No matching font file found for font-family: ".toList ++ family

/-- FindEmbedFonts will analyze the SVG file looking for all unique fonts used, walk the
directory tree looking for fonts that match the font-family names, Base64 encode the fonts
and embed them in the SVG file. The result is the pair the Go function returns;
`PrintResults`, which only writes a report to standard output, is left out. -/
def FindEmbedFonts (os : OS) (ro : RangeOrders) (svg dir : Str) : Str × Option Str :=
  match cmdLinePass os ro (extractFonts svg) dir with
  | (_, some err) => (svg, some ("Error processing command line font: ".toList ++ err))
  | (fonts, none) =>
    if CheckAllFontsSet fonts then
      match Embed ro.embed fonts svg with
      | (_, some err) => (svg, some err)
      | (svgEmbed, none) => (svgEmbed, none)
    else
      match Walk os ro.walk fonts dir with
      | (_, some err) => (svg, some err)
      | (fonts1, none) =>
        match (if ¬ CheckAllFontsSet fonts1 then
            ro.report.find? (fun family => (fonts1.index family).EncodedFont.length = 0)
          else none) with
        | some family => (svg, some (noMatchError family))
        | none =>
          match Embed ro.embed fonts1 svg with
          | (_, some err) => (svg, some err)
          | (svgEmbed, none) => (svgEmbed, none)

/-- An entry the passes can have produced for the family `k`, in the environment `os`, from
the explicit files `explicit` under the directory `baseDir` and the calls `visits` of the
walk: it carries the family's name, and its encoding is empty or the Base64 text of the
bytes read at the path `p` of the file whose name it records, a name that matches the
family; that file is an explicit file, read at its path under `baseDir`, or a file of the
walk, recorded under its base name. -/
def Font.SourcedFor (os : OS) (explicit : List Str) (baseDir : Str) (visits : List Visit)
    (k : Str) (f : Font) : Prop :=
  f.Family = k ∧
    (f.EncodedFont = [] ∨
      ∃ (p : Str) (b : List Byte), os.ReadFile p = .ok b ∧ matchesFamily f.File k = true ∧
        f.EncodedFont = EncodeToString b ∧
        ((f.File ∈ explicit ∧ p = os.Join baseDir f.File) ∨
          (Visit.file p ∈ visits ∧ f.File = Split p)))

/-! ## Scenarios used to evaluate the program -/

/-- The SVG text of the scenarios of the specification. -/
def acmeSvg : Str := "<style>font-family: 'Acme Sans';</style></defs>".toList

/-- The family named in `acmeSvg`. -/
def acmeFamily : Str := "Acme Sans".toList

/-- Contents of the file `AcmeSans-Regular.ttf` in the scenarios. -/
def regularBytes : List Byte := [0, 1, 0, 0, 82]

/-- Contents of the file `AcmeSans-Bold.ttf` in the scenarios. -/
def boldBytes : List Byte := [0, 1, 0, 0, 66, 255]

/-- A working directory `/work` holding the two Acme Sans files, with the command line and
the calls of the directory walk as given. -/
def acmeOS (args : List Str) (visits : List Visit) : OS where
  Args := args
  Join := fun a b => a ++ "/".toList ++ b
  Stat := fun p =>
    if p = "/work/AcmeSans-Regular.ttf".toList ∨ p = "/work/AcmeSans-Bold.ttf".toList then none
    else some ("stat ".toList ++ p ++ ": no such file or directory".toList)
  ReadFile := fun p =>
    if p = "/work/AcmeSans-Regular.ttf".toList then .ok regularBytes
    else if p = "/work/AcmeSans-Bold.ttf".toList then .ok boldBytes
    else .error ("open ".toList ++ p ++ ": no such file or directory".toList)
  Walk := fun _ => visits

/-- The walk of `/work` when it holds no file. -/
def visitsNone : List Visit := [(.dir "/work".toList false)]

/-- The walk of `/work` when it holds only `AcmeSans-Regular.ttf`. -/
def visitsRegular : List Visit :=
  [(.dir "/work".toList false), (.file "/work/AcmeSans-Regular.ttf".toList)]

/-- The walk of `/work` when it holds both files; `filepath.Walk` visits in lexical order. -/
def visitsBoth : List Visit :=
  [(.dir "/work".toList false), (.file "/work/AcmeSans-Bold.ttf".toList),
    (.file "/work/AcmeSans-Regular.ttf".toList)]

/-- The command line `svg-font-embed in.svg`. -/
def argsPlain : List Str := ["svg-font-embed".toList, "in.svg".toList]

/-- The command line `svg-font-embed in.svg AcmeSans-Bold.ttf`. -/
def argsBold : List Str := ["svg-font-embed".toList, "in.svg".toList, "AcmeSans-Bold.ttf".toList]

/-- The range orders of a map whose only key is the family given. -/
def singleOrders (family : Str) : RangeOrders :=
  ⟨fun _ => [family], fun _ => [family], [family], [family]⟩

/-- The table of `acmeSvg` after the command-line pass with `AcmeSans-Bold.ttf`. -/
def acmeLocked : FontMap :=
  [(acmeFamily,
    { Family := acmeFamily, CmdLineSet := true, File := "AcmeSans-Bold.ttf".toList,
      EncodedFont := EncodeToString boldBytes })]

/-- An SVG text naming the family `M+ 1p`. -/
def mplusSvg : Str := "<style>font-family: M+ 1p;</style></defs>".toList

/-- The family named in `mplusSvg`. -/
def mplusFamily : Str := "M+ 1p".toList

/-- A working directory `/work` holding the single file `M+1p-regular.ttf`, no font being
given on the command line. -/
def mplusOS : OS where
  Args := argsPlain
  Join := fun a b => a ++ "/".toList ++ b
  Stat := fun p =>
    if p = "/work/M+1p-regular.ttf".toList then none
    else some ("stat ".toList ++ p ++ ": no such file or directory".toList)
  ReadFile := fun p =>
    if p = "/work/M+1p-regular.ttf".toList then .ok regularBytes
    else .error ("open ".toList ++ p ++ ": no such file or directory".toList)
  Walk := fun _ => [(.dir "/work".toList false), (.file "/work/M+1p-regular.ttf".toList)]

/-- A working directory whose regular files are the ones listed, each with its path and
its bytes, in the order `filepath.Walk` visits them; the command line is as given. -/
def dirOS (args : List Str) (files : List (Str × List Byte)) : OS where
  Args := args
  Join := fun a b => a ++ "/".toList ++ b
  Stat := fun p =>
    if files.any (fun e => e.1 = p) then none
    else some ("stat ".toList ++ p ++ ": no such file or directory".toList)
  ReadFile := fun p =>
    match files.find? (fun e => e.1 = p) with
    | some e => .ok e.2
    | none => .error ("open ".toList ++ p ++ ": no such file or directory".toList)
  Walk := fun d => .dir d false :: files.map (fun e => .file e.1)

/-- The range orders of a map without keys. -/
def noOrders : RangeOrders := ⟨fun _ => [], fun _ => [], [], []⟩

/-- An SVG text without any `font-family` declaration. -/
def plainSvg : Str := "<svg><defs></defs></svg>".toList

/-- An SVG text naming the two families `Acme` and `Acme Sans`. -/
def twoSvg : Str := "<style>font-family: Acme; font-family: 'Acme Sans';</style></defs>".toList

/-- A working directory `/work` holding `Acme.ttf` and `AcmeSans-Regular.ttf`, visited in this
(lexical) order; no font is given on the command line. The first file matches only the
family `Acme`, the second one matches both families. -/
def twoOS : OS :=
  dirOS argsPlain
    [("/work/Acme.ttf".toList, boldBytes), ("/work/AcmeSans-Regular.ttf".toList, regularBytes)]

/-- Every loop over the two families yields `Acme` first. -/
def ordersAcmeFirst : RangeOrders :=
  ⟨fun _ => ["Acme".toList, acmeFamily], fun _ => ["Acme".toList, acmeFamily],
    ["Acme".toList, acmeFamily], ["Acme".toList, acmeFamily]⟩

/-- Every loop over the two families yields `Acme Sans` first. -/
def ordersSansFirst : RangeOrders :=
  ⟨fun _ => [acmeFamily, "Acme".toList], fun _ => [acmeFamily, "Acme".toList],
    [acmeFamily, "Acme".toList], [acmeFamily, "Acme".toList]⟩

/-- The table of `twoSvg` once the scan has met `Acme.ttf`: `Acme` is locked, `Acme Sans` is
as extracted. -/
def twoAfterFirst : FontMap :=
  [("Acme".toList,
    { Family := "Acme".toList, CmdLineSet := true, File := "Acme.ttf".toList,
      EncodedFont := EncodeToString boldBytes }),
   (acmeFamily, { Family := acmeFamily, CmdLineSet := false, File := [], EncodedFont := [] })]

/-- A working directory `/work` holding `AcmeSans-Regular.ttf` and the empty file
`Zz-AcmeSans.ttf`, visited in this (lexical) order; the command line is as given. -/
def zeroOS (args : List Str) : OS :=
  dirOS args
    [("/work/AcmeSans-Regular.ttf".toList, regularBytes), ("/work/Zz-AcmeSans.ttf".toList, [])]

/-- The command line `svg-font-embed in.svg Zz-AcmeSans.ttf`. -/
def argsZero : List Str := ["svg-font-embed".toList, "in.svg".toList, "Zz-AcmeSans.ttf".toList]

/-- The command line `svg-font-embed in.svg Zz-AcmeSans.ttf AcmeSans-Regular.ttf`. -/
def argsZeroRegular : List Str :=
  ["svg-font-embed".toList, "in.svg".toList, "Zz-AcmeSans.ttf".toList,
    "AcmeSans-Regular.ttf".toList]

/-- The table of `acmeSvg` after the command-line pass with the empty `Zz-AcmeSans.ttf`. -/
def acmeLockedEmpty : FontMap :=
  [(acmeFamily,
    { Family := acmeFamily, CmdLineSet := true, File := "Zz-AcmeSans.ttf".toList,
      EncodedFont := [] })]

/-- A working directory `/work` holding the empty file `AcmeSans-Bold.ttf` and
`AcmeSans-Regular.ttf`, visited in this (lexical) order; no font is given on the command
line. -/
def emptyBoldOS : OS :=
  dirOS argsPlain
    [("/work/AcmeSans-Bold.ttf".toList, []), ("/work/AcmeSans-Regular.ttf".toList, regularBytes)]

/-- The table of `acmeSvg` once the scan of `emptyBoldOS` has met the empty
`AcmeSans-Bold.ttf`. -/
def acmeScannedEmpty : FontMap :=
  [(acmeFamily,
    { Family := acmeFamily, CmdLineSet := true, File := "AcmeSans-Bold.ttf".toList,
      EncodedFont := [] })]

/-! ## The font map -/

theorem index_assign_self (fm : FontMap) (k : Str) (v : Font) : (fm.assign k v).index k = v := by
  induction fm with
  | nil => simp [FontMap.assign, FontMap.index]
  | cons e rest ih =>
    obtain ⟨k1, v1⟩ := e
    by_cases h : k1 = k
    · simp [FontMap.assign, FontMap.index, h]
    · simp [FontMap.assign, FontMap.index, h, ih]

theorem index_assign_ne (fm : FontMap) (k k2 : Str) (v : Font) (hne : k ≠ k2) :
    (fm.assign k v).index k2 = fm.index k2 := by
  induction fm with
  | nil => simp [FontMap.assign, FontMap.index, hne]
  | cons e rest ih =>
    obtain ⟨k1, v1⟩ := e
    by_cases h : k1 = k
    · subst h
      simp [FontMap.assign, FontMap.index, hne]
    · by_cases h2 : k1 = k2
      · subst h2
        simp [FontMap.assign, FontMap.index, h]
      · simp [FontMap.assign, FontMap.index, h, h2, ih]

theorem mem_keys_assign (fm : FontMap) (k k2 : Str) (v : Font) :
    k2 ∈ (fm.assign k v).keys ↔ k2 = k ∨ k2 ∈ fm.keys := by
  induction fm with
  | nil => simp [FontMap.assign, FontMap.keys]
  | cons e rest ih =>
    obtain ⟨k1, v1⟩ := e
    by_cases h : k1 = k
    · subst h
      simp [FontMap.assign, FontMap.keys]
    · have ih2 : k2 ∈ List.map Prod.fst (FontMap.assign rest k v) ↔
          k2 = k ∨ k2 ∈ List.map Prod.fst rest := ih
      simp only [FontMap.assign, FontMap.keys, h, if_false, List.map_cons, List.mem_cons, ih2]
      tauto

theorem keys_assign_of_mem (fm : FontMap) (k : Str) (v : Font) (hk : k ∈ fm.keys) :
    (fm.assign k v).keys = fm.keys := by
  induction fm with
  | nil => simp [FontMap.keys] at hk
  | cons e rest ih =>
    obtain ⟨k1, v1⟩ := e
    by_cases h : k1 = k
    · subst h
      simp [FontMap.assign, FontMap.keys]
    · have hk2 : k ∈ FontMap.keys rest := by
        simp only [FontMap.keys, List.map_cons, List.mem_cons] at hk
        rcases hk with hk | hk
        · exact absurd hk.symm h
        · exact hk
      have ih2 : List.map Prod.fst (FontMap.assign rest k v) = List.map Prod.fst rest := ih hk2
      simp [FontMap.assign, FontMap.keys, h, ih2]

theorem nodup_keys_assign (fm : FontMap) (k : Str) (v : Font) (hnd : fm.keys.Nodup) :
    (fm.assign k v).keys.Nodup := by
  induction fm with
  | nil => simp [FontMap.assign, FontMap.keys]
  | cons e rest ih =>
    obtain ⟨k1, v1⟩ := e
    have hnd2 : k1 ∉ FontMap.keys rest ∧ (FontMap.keys rest).Nodup := by
      simpa [FontMap.keys] using hnd
    by_cases h : k1 = k
    · subst h
      simpa [FontMap.assign, FontMap.keys] using hnd
    · have hmem : k1 ∉ (FontMap.assign rest k v).keys := by
        rw [mem_keys_assign]
        rintro (h1 | h1)
        · exact h h1
        · exact hnd2.1 h1
      have := ih hnd2.2
      simp only [FontMap.assign, h, if_false, FontMap.keys, List.map_cons, List.nodup_cons]
      exact ⟨hmem, this⟩

/-- In a map with distinct keys, every stored entry is the one indexing yields. -/
theorem index_of_mem (fm : FontMap) (hnd : fm.keys.Nodup) (k : Str) (v : Font)
    (hmem : (k, v) ∈ fm) : fm.index k = v := by
  induction fm with
  | nil => simp at hmem
  | cons e rest ih =>
    obtain ⟨k1, v1⟩ := e
    have hnd2 : k1 ∉ FontMap.keys rest ∧ (FontMap.keys rest).Nodup := by
      simpa [FontMap.keys] using hnd
    rcases List.mem_cons.mp hmem with h | h
    · cases h
      simp [FontMap.index]
    · have hk : k ∈ FontMap.keys rest := List.mem_map_of_mem Prod.fst h
      have hne : k1 ≠ k := fun h2 => hnd2.1 (h2 ▸ hk)
      simp [FontMap.index, hne, ih hnd2.2 h]

theorem mem_of_mem_keys (fm : FontMap) (k : Str) (hk : k ∈ fm.keys) : (k, fm.index k) ∈ fm := by
  induction fm with
  | nil => simp [FontMap.keys] at hk
  | cons e rest ih =>
    obtain ⟨k1, v1⟩ := e
    by_cases h : k1 = k
    · subst h
      simp [FontMap.index]
    · have hk2 : k ∈ FontMap.keys rest := by
        simp only [FontMap.keys, List.map_cons, List.mem_cons] at hk
        rcases hk with hk | hk
        · exact absurd hk.symm h
        · exact hk
      simp [FontMap.index, h, ih hk2]

/-- With distinct keys, `CheckAllFontsSet` says that every key has a non-empty encoding. -/
theorem checkAllFontsSet_iff (fm : FontMap) (hnd : fm.keys.Nodup) :
    CheckAllFontsSet fm = true ↔ ∀ k ∈ fm.keys, (fm.index k).EncodedFont ≠ [] := by
  unfold CheckAllFontsSet
  rw [List.all_eq_true]
  constructor
  · intro h k hk
    have := h _ (mem_of_mem_keys fm k hk)
    simpa using this
  · intro h e he
    obtain ⟨k, v⟩ := e
    have hk : k ∈ fm.keys := List.mem_map_of_mem Prod.fst he
    have := h k hk
    rw [index_of_mem fm hnd k v he] at this
    simpa using this

/-! ## The scan pass writes only entries that are neither locked nor resolved -/

theorem walkLoop_index (os : OS) (p f : Str) (order : List Str) (fm : FontMap) (k : Str)
    (hk : (fm.index k).CmdLineSet = true ∨ (fm.index k).EncodedFont ≠ []) :
    (walkLoop os p f order fm).1.index k = fm.index k := by
  induction order generalizing fm with
  | nil => rfl
  | cons family rest ih =>
    unfold walkLoop
    split
    · split
      · rfl
      · rename_i hlock
        split
        · rfl
        · split
          · rfl
          · rename_i hlen
            have hne : family ≠ k := by
              rintro rfl
              rcases hk with hk | hk
              · exact hlock hk
              · exact hlen (List.length_pos.mpr hk)
            rw [ih _ (by rw [index_assign_ne _ _ _ _ hne]; exact hk)]
            exact index_assign_ne _ _ _ _ hne
    · exact ih fm hk

theorem genWalkFunc_index (os : OS) (order : List Str) (fm : FontMap) (v : Visit) (k : Str)
    (hk : (fm.index k).CmdLineSet = true ∨ (fm.index k).EncodedFont ≠ []) :
    (genWalkFunc os order fm v).1.index k = fm.index k := by
  unfold genWalkFunc
  split
  · rfl
  · exact walkLoop_index os _ _ order fm k hk

theorem walkFrom_index (os : OS) (ord : Nat → List Str) (i : Nat) (vs : List Visit)
    (fm : FontMap) (k : Str)
    (hk : (fm.index k).CmdLineSet = true ∨ (fm.index k).EncodedFont ≠ []) :
    (walkFrom os ord i vs fm).1.index k = fm.index k := by
  induction vs generalizing fm i with
  | nil => rfl
  | cons v vs ih =>
    have hstep := genWalkFunc_index os (ord i) fm v k hk
    unfold walkFrom
    split
    · rename_i fm1 err heq
      rw [heq] at hstep
      exact hstep
    · rename_i fm1 heq
      rw [heq] at hstep
      simp only at hstep
      rw [ih (i + 1) fm1 (by rw [hstep]; exact hk), hstep]

/-! ## Replacement of the first occurrence -/

theorem contains_cons (c : Char) (cs sub : Str) :
    Contains (c :: cs) sub = (sub.isPrefixOf (c :: cs) || Contains cs sub) := rfl

theorem replaceAux_absent (old new : Str) (n : Option Nat) (s : Str)
    (h : Contains s old = false) : replaceAux old new n 0 s = s := by
  induction s with
  | nil => rfl
  | cons c cs ih =>
    rw [contains_cons, Bool.or_eq_false_iff] at h
    unfold replaceAux
    rw [if_neg (by simp [h.1]), ih h.2]

theorem replaceAux_done (old new : Str) (s : Str) : replaceAux old new (some 0) 0 s = s := by
  induction s with
  | nil => rfl
  | cons c cs ih =>
    unfold replaceAux
    rw [if_neg (by simp), ih]

theorem replaceAux_skip (old new : Str) (n : Option Nat) (t s : Str) :
    replaceAux old new n t.length (t ++ s) = replaceAux old new n 0 s := by
  induction t with
  | nil => rfl
  | cons c cs ih =>
    simp only [List.length_cons, List.cons_append]
    rw [replaceAux]
    exact ih

/-- A text that does not start with `t` still does not after a character outside `t` and
more text are appended. -/
theorem isPrefixOf_append_false (a : Char) (r : Str) (t p : Str) (ha : a ∉ t)
    (h : t.isPrefixOf p = false) : t.isPrefixOf (p ++ a :: r) = false := by
  induction t generalizing p with
  | nil => simp at h
  | cons x t ih =>
    have hxa : x ≠ a := fun hx => ha (hx ▸ List.mem_cons_self _ _)
    cases p with
    | nil => simp [List.isPrefixOf, hxa]
    | cons y p =>
      simp only [List.cons_append, List.isPrefixOf, Bool.and_eq_false_iff] at h ⊢
      rcases h with h | h
      · exact Or.inl h
      · exact Or.inr (ih p (fun hm => ha (List.mem_cons_of_mem _ hm)) h)

/-- When `old` starts with a character that does not occur again in it and `p` has no
occurrence of `old`, the first occurrence of `old` in `p ++ old ++ s` is the one written,
and replacing one occurrence replaces that one. -/
theorem replaceAux_first (a : Char) (t new p s : Str) (ha : a ∉ t)
    (hp : Contains p (a :: t) = false) :
    replaceAux (a :: t) new (some 1) 0 (p ++ (a :: t) ++ s) = p ++ new ++ s := by
  induction p with
  | nil =>
    simp only [List.nil_append, List.cons_append]
    unfold replaceAux
    have hpre : (a :: t).isPrefixOf (a :: (t ++ s)) = true := by
      rw [List.isPrefixOf_iff_prefix]
      exact ⟨s, by simp⟩
    rw [if_pos ⟨by simp, hpre⟩]
    simp only [Option.map_some', Nat.pred_eq_sub_one, Nat.sub_self, List.length_cons,
      Nat.add_sub_cancel]
    rw [replaceAux_skip, replaceAux_done]
  | cons c p ih =>
    rw [contains_cons, Bool.or_eq_false_iff] at hp
    have hpre : (a :: t).isPrefixOf (c :: (p ++ a :: t ++ s)) = false := by
      have h1 := hp.1
      simp only [List.isPrefixOf, Bool.and_eq_false_iff] at h1 ⊢
      rcases h1 with h1 | h1
      · exact Or.inl h1
      · right
        have := isPrefixOf_append_false a (t ++ s) t p ha h1
        simpa using this
    simp only [List.cons_append]
    rw [replaceAux, if_neg (by rw [hpre]; simp)]
    have := ih hp.2
    simp only [List.cons_append, List.append_assoc] at this ⊢
    rw [this]

theorem foldl_add_fonts (fm : FontMap) (order : List Str) (d : Document) :
    (order.foldl (fun d family => d.Add (fm.index family)) d).Fonts =
      d.Fonts ++ order.map fm.index := by
  induction order generalizing d with
  | nil => simp
  | cons k rest ih =>
    rw [List.foldl_cons, ih]
    simp [Document.Add]

theorem replace_one (s old new : Str) :
    Replace s old new 1 = replaceAux old new (some 1) 0 s := rfl

/-- The text `Embed` puts in the place of the first `</defs>`. -/
theorem embed_eq (order : List Str) (fm : FontMap) (svg : Str) :
    Embed order fm svg =
      (Replace svg "</defs>".toList
        (((order.map fm.index).map renderFont).flatten ++ templateTail) 1, none) := by
  unfold Embed Execute
  simp only [foldl_add_fonts, List.nil_append]

/-! ## Both passes keep the keys of the table -/

theorem walkLoop_keys (os : OS) (p f : Str) (order : List Str) (fm : FontMap)
    (hsub : ∀ k ∈ order, k ∈ fm.keys) : (walkLoop os p f order fm).1.keys = fm.keys := by
  induction order generalizing fm with
  | nil => rfl
  | cons family rest ih =>
    have hfam : family ∈ fm.keys := hsub family (List.mem_cons_self _ _)
    have hrest : ∀ k ∈ rest, k ∈ fm.keys := fun k hk => hsub k (List.mem_cons_of_mem _ hk)
    unfold walkLoop
    split
    · split
      · rfl
      · split
        · rfl
        · split
          · rfl
          · rw [ih _ (by rw [keys_assign_of_mem _ _ _ hfam]; exact hrest)]
            exact keys_assign_of_mem _ _ _ hfam
    · exact ih fm hrest

theorem genWalkFunc_keys (os : OS) (order : List Str) (fm : FontMap) (v : Visit)
    (hsub : ∀ k ∈ order, k ∈ fm.keys) : (genWalkFunc os order fm v).1.keys = fm.keys := by
  unfold genWalkFunc
  split
  · rfl
  · exact walkLoop_keys os _ _ order fm hsub

theorem walkFrom_keys (os : OS) (ord : Nat → List Str) (i : Nat) (vs : List Visit)
    (fm : FontMap) (hsub : ∀ i, ∀ k ∈ ord i, k ∈ fm.keys) :
    (walkFrom os ord i vs fm).1.keys = fm.keys := by
  induction vs generalizing fm i with
  | nil => rfl
  | cons v vs ih =>
    have hstep := genWalkFunc_keys os (ord i) fm v (hsub i)
    unfold walkFrom
    split
    · rename_i fm1 err heq
      rw [heq] at hstep
      exact hstep
    · rename_i fm1 heq
      rw [heq] at hstep
      simp only at hstep
      rw [ih (i + 1) fm1 (by rw [hstep]; exact hsub), hstep]

theorem cmdLineLoop_keys (os : OS) (p f : Str) (order : List Str) (fm : FontMap)
    (hsub : ∀ k ∈ order, k ∈ fm.keys) : (cmdLineLoop os p f order fm).1.keys = fm.keys := by
  induction order generalizing fm with
  | nil => rfl
  | cons family rest ih =>
    have hfam : family ∈ fm.keys := hsub family (List.mem_cons_self _ _)
    have hrest : ∀ k ∈ rest, k ∈ fm.keys := fun k hk => hsub k (List.mem_cons_of_mem _ hk)
    unfold cmdLineLoop
    split
    · split
      · rfl
      · rw [ih _ (by rw [keys_assign_of_mem _ _ _ hfam]; exact hrest)]
        exact keys_assign_of_mem _ _ _ hfam
    · exact ih fm hrest

theorem cmdLineFrom_keys (os : OS) (ord : Nat → List Str) (baseDir : Str) (i : Nat)
    (fonts : List Str) (fm : FontMap) (hsub : ∀ i, ∀ k ∈ ord i, k ∈ fm.keys) :
    (cmdLineFrom os ord baseDir i fonts fm).1.keys = fm.keys := by
  induction fonts generalizing fm i with
  | nil => rfl
  | cons fontFile rest ih =>
    have hstep := cmdLineLoop_keys os (os.Join baseDir fontFile) fontFile (ord i) fm (hsub i)
    unfold cmdLineFrom
    simp only
    split
    · rfl
    · split
      · rename_i fm1 err heq
        rw [heq] at hstep
        exact hstep
      · rename_i fm1 heq
        rw [heq] at hstep
        simp only at hstep
        rw [ih (i + 1) fm1 (by rw [hstep]; exact hsub), hstep]

theorem cmdLinePass_keys (os : OS) (ro : RangeOrders) (fm : FontMap) (dir : Str)
    (hsub : ∀ i, ∀ k ∈ ro.cmdLine i, k ∈ fm.keys) :
    (cmdLinePass os ro fm dir).1.keys = fm.keys := by
  unfold cmdLinePass ProcessCmdLineFonts
  split
  · exact cmdLineFrom_keys os _ _ _ _ fm hsub
  · rfl

/-! ## The extracted table -/

theorem extractStep_nodup (fonts : FontMap) (m : Str) (hnd : fonts.keys.Nodup) :
    (extractStep fonts m).keys.Nodup := by
  unfold extractStep
  simp only
  split
  · exact hnd
  · exact nodup_keys_assign _ _ _ hnd

theorem foldl_extractStep_nodup (ms : List Str) (fonts : FontMap) (hnd : fonts.keys.Nodup) :
    (ms.foldl extractStep fonts).keys.Nodup := by
  induction ms generalizing fonts with
  | nil => exact hnd
  | cons m ms ih => exact ih _ (extractStep_nodup fonts m hnd)

theorem extractFonts_nodup (svg : Str) : (extractFonts svg).keys.Nodup :=
  foldl_extractStep_nodup _ [] (by simp [FontMap.keys])

theorem mem_keys_foldl_extractStep (ms : List Str) (fonts : FontMap) (k : Str) :
    k ∈ (ms.foldl extractStep fonts).keys ↔
      k ∈ fonts.keys ∨ ∃ m ∈ ms, Trim m " '\"\t\n\r".toList = k ∧
        k ≠ "sans-serif".toList ∧ k ≠ "serif".toList := by
  induction ms generalizing fonts with
  | nil => simp
  | cons m ms ih =>
    rw [List.foldl_cons, ih]
    constructor
    · rintro (h | ⟨m2, hm2, h⟩)
      · unfold extractStep at h
        simp only at h
        split at h
        · exact Or.inl h
        · rename_i hgen
          rw [mem_keys_assign] at h
          rcases h with h | h
          · right
            refine ⟨m, List.mem_cons_self _ _, h.symm, ?_, ?_⟩
            · intro hk
              exact hgen (Or.inl (h ▸ hk))
            · intro hk
              exact hgen (Or.inr (h ▸ hk))
          · exact Or.inl h
      · exact Or.inr ⟨m2, List.mem_cons_of_mem _ hm2, h⟩
    · rintro (h | ⟨m2, hm2, h⟩)
      · left
        unfold extractStep
        simp only
        split
        · exact h
        · rw [mem_keys_assign]
          exact Or.inr h
      · rcases List.mem_cons.mp hm2 with rfl | hm2
        · left
          unfold extractStep
          simp only
          rw [if_neg (by rw [h.1]; exact fun hh => hh.elim h.2.1 h.2.2), mem_keys_assign]
          exact Or.inl h.1.symm
        · exact Or.inr ⟨m2, hm2, h⟩

/-! ## The match test -/

theorem replaceAux_blank (s : Str) :
    replaceAux " ".toList [] none 0 s = s.filter (fun c => c != ' ') := by
  induction s with
  | nil => rfl
  | cons c cs ih =>
    rw [replaceAux]
    by_cases hc : c = ' '
    · subst hc
      rw [if_pos ⟨by simp, by simp [List.isPrefixOf]⟩]
      simpa using ih
    · have hpre : List.isPrefixOf " ".toList (c :: cs) = false := by
        simp [List.isPrefixOf, Ne.symm hc]
      rw [if_neg (by rw [hpre]; simp), ih]
      simp [hc]

/-- The match test compares the lower-cased file name with the lower-cased family name
without its blanks. -/
theorem matchesFamily_eq (f family : Str) :
    matchesFamily f family =
      Contains (ToLower f) (ToLower (family.filter (fun c => c != ' '))) := by
  unfold matchesFamily Replace
  rw [if_pos (by decide)]
  simp only [replaceAux_blank]

/-! ## The command-line pass does not look at the directory walk -/

theorem cmdLineLoop_congr (os os2 : OS) (hread : os.ReadFile = os2.ReadFile) (p f : Str)
    (order : List Str) (fm : FontMap) :
    cmdLineLoop os p f order fm = cmdLineLoop os2 p f order fm := by
  induction order generalizing fm with
  | nil => rfl
  | cons family rest ih =>
    rw [cmdLineLoop, cmdLineLoop, hread]
    simp only [ih]

theorem cmdLineFrom_congr (os os2 : OS) (hjoin : os.Join = os2.Join) (hstat : os.Stat = os2.Stat)
    (hread : os.ReadFile = os2.ReadFile) (ord : Nat → List Str) (baseDir : Str) (i : Nat)
    (fonts : List Str) (fm : FontMap) :
    cmdLineFrom os ord baseDir i fonts fm = cmdLineFrom os2 ord baseDir i fonts fm := by
  induction fonts generalizing fm i with
  | nil => rfl
  | cons fontFile rest ih =>
    rw [cmdLineFrom, cmdLineFrom, hjoin, hstat]
    simp only [cmdLineLoop_congr os os2 hread, ih]

theorem cmdLinePass_congr (os os2 : OS) (ro ro2 : RangeOrders) (hargs : os.Args = os2.Args)
    (hjoin : os.Join = os2.Join) (hstat : os.Stat = os2.Stat)
    (hread : os.ReadFile = os2.ReadFile) (hord : ro.cmdLine = ro2.cmdLine) (fm : FontMap)
    (dir : Str) : cmdLinePass os ro fm dir = cmdLinePass os2 ro2 fm dir := by
  unfold cmdLinePass ProcessCmdLineFonts
  rw [hargs, hord, cmdLineFrom_congr os os2 hjoin hstat hread]

/-! ## The scan pass and the final check -/

/-- After a scan without error, started from a table with distinct keys and run with orders
over its keys, the table has the same keys, and every family resolved before is resolved
after. -/
theorem walk_check_mono (os : OS) (ord : Nat → List Str) (fonts fonts1 : FontMap) (dir : Str)
    (hnd : fonts.keys.Nodup) (hord : ∀ i, ∀ k ∈ ord i, k ∈ fonts.keys)
    (hwalk : Walk os ord fonts dir = (fonts1, none)) :
    fonts1.keys = fonts.keys ∧
      (CheckAllFontsSet fonts = true → CheckAllFontsSet fonts1 = true) := by
  have hk : fonts1.keys = fonts.keys := by
    have := walkFrom_keys os ord 0 (os.Walk dir) fonts hord
    unfold Walk at hwalk
    rw [hwalk] at this
    exact this
  refine ⟨hk, fun hall => ?_⟩
  rw [checkAllFontsSet_iff fonts1 (hk ▸ hnd), hk]
  rw [checkAllFontsSet_iff fonts hnd] at hall
  intro k hmem
  have := walkFrom_index os ord 0 (os.Walk dir) fonts k (Or.inr (hall k hmem))
  unfold Walk at hwalk
  rw [hwalk] at this
  simp only at this
  rw [this]
  exact hall k hmem

/-- The reporting loop finds a family without encoding whenever the check fails. -/
theorem report_finds (fonts1 : FontMap) (report : List Str) (hnd : fonts1.keys.Nodup)
    (hrep : fonts1.IsOrder report) (hcheck : CheckAllFontsSet fonts1 = false) :
    ∃ family, report.find? (fun family => (fonts1.index family).EncodedFont.length = 0) =
        some family ∧ family ∈ fonts1.keys ∧ (fonts1.index family).EncodedFont = [] := by
  have hex : ∃ k ∈ fonts1.keys, (fonts1.index k).EncodedFont = [] := by
    by_contra hcon
    have hall : CheckAllFontsSet fonts1 = true := by
      rw [checkAllFontsSet_iff fonts1 hnd]
      intro k hk hemp
      exact hcon ⟨k, hk, hemp⟩
    rw [hall] at hcheck
    exact Bool.noConfusion hcheck
  obtain ⟨k, hk, hemp⟩ := hex
  cases hfind : report.find? (fun family => (fonts1.index family).EncodedFont.length = 0) with
  | none =>
    rw [List.find?_eq_none] at hfind
    have := hfind k (hrep.symm.subset hk)
    simp [hemp] at this
  | some family =>
    refine ⟨family, rfl, hrep.subset (List.mem_of_find?_eq_some hfind), ?_⟩
    have := List.find?_some hfind
    simpa using this

/-! ## The scenarios -/

theorem singleOrders_valid_acme : (singleOrders acmeFamily).Valid (extractFonts acmeSvg) := by
  have h : (extractFonts acmeSvg).IsOrder [acmeFamily] := by decide
  exact ⟨fun _ => h, fun _ => h, h, h⟩

/-! ## Base64 round trip -/

theorem decChar_encChar : ∀ n, n < 64 → decChar (encChar n) = some n := by
  decide

theorem encChar_ne_pad : ∀ n, n < 64 → encChar n ≠ '=' := by
  decide

theorem byte_eq (a : Byte) (x : Nat) (h : x % 256 = a.val) : (Fin.ofNat x : Byte) = a := by
  apply Fin.ext
  simp only [Fin.ofNat, Fin.val_mk]
  exact h

theorem decodeStdFuel_encode (bs : List Byte) :
    ∀ fuel, (EncodeToString bs).length ≤ fuel → decodeStdFuel fuel (EncodeToString bs) = some bs := by
  induction bs using EncodeToString.induct with
  | case1 =>
    intro fuel _
    cases fuel <;> rfl
  | case2 a =>
    intro fuel hfuel
    have ha := a.isLt
    cases fuel with
    | zero => simp [EncodeToString] at hfuel
    | succ fuel =>
      simp only [EncodeToString, decodeStdFuel,
        decChar_encChar _ (show a.val / 4 < 64 by omega),
        decChar_encChar _ (show a.val % 4 * 16 < 64 by omega)]
      simp only [and_self, if_true, Option.some.injEq, List.cons.injEq, and_true]
      apply byte_eq
      omega
  | case3 a b =>
    intro fuel hfuel
    have ha := a.isLt
    have hb := b.isLt
    cases fuel with
    | zero => simp [EncodeToString] at hfuel
    | succ fuel =>
      have hne := encChar_ne_pad _ (show b.val % 16 * 4 < 64 by omega)
      simp only [EncodeToString, decodeStdFuel,
        decChar_encChar _ (show a.val / 4 < 64 by omega),
        decChar_encChar _ (show a.val % 4 * 16 + b.val / 16 < 64 by omega),
        decChar_encChar _ (show b.val % 16 * 4 < 64 by omega)]
      simp only [hne, and_false, if_false, and_self, if_true, Option.some.injEq, List.cons.injEq,
        and_true]
      refine ⟨?_, ?_⟩ <;> (apply byte_eq; omega)
  | case4 a b c rest ih =>
    intro fuel hfuel
    have ha := a.isLt
    have hb := b.isLt
    have hc := c.isLt
    cases fuel with
    | zero => simp [EncodeToString] at hfuel
    | succ fuel =>
      have hne := encChar_ne_pad _ (show c.val % 64 < 64 by omega)
      have hlen : (EncodeToString rest).length ≤ fuel := by
        simp only [EncodeToString, List.length_cons] at hfuel
        omega
      simp only [EncodeToString, decodeStdFuel,
        decChar_encChar _ (show a.val / 4 < 64 by omega),
        decChar_encChar _ (show a.val % 4 * 16 + b.val / 16 < 64 by omega),
        decChar_encChar _ (show b.val % 16 * 4 + c.val / 64 < 64 by omega),
        decChar_encChar _ (show c.val % 64 < 64 by omega), ih fuel hlen]
      simp only [hne, and_false, if_false, Option.some.injEq, List.cons.injEq, and_true]
      refine ⟨?_, ?_, ?_⟩ <;> (apply byte_eq; omega)

/-- What `EncodeToString` writes decodes to the bytes it was given. -/
theorem decodeStd_encode (bs : List Byte) : decodeStd (EncodeToString bs) = some bs :=
  decodeStdFuel_encode bs _ (Nat.le_refl _)

/-! ## The escapers on harmless text -/

theorem urlNormalizer_keep (s : Str)
    (h : ∀ c ∈ s, ("!#$&*+,/:;=?@[]-._~".toList.contains c || c.isAlphanum) = true) :
    urlNormalizer s = s := by
  induction s with
  | nil => rfl
  | cons c cs ih =>
    rw [urlNormalizer, if_pos (h c (List.mem_cons_self _ _)),
      ih (fun d hd => h d (List.mem_cons_of_mem _ hd))]
    rfl

theorem encChar_keep (n : Nat) :
    ("!#$&*+,/:;=?@[]-._~".toList.contains (encChar n) || (encChar n).isAlphanum) = true := by
  by_cases hn : n < 64
  · revert n
    decide
  · have h : encChar n = 'A' := by
      unfold encChar
      exact List.getD_eq_default _ _ (by simpa [encodeStd] using Nat.le_of_not_lt hn)
    rw [h]
    decide

theorem encode_keep (bs : List Byte) : ∀ c ∈ EncodeToString bs,
    ("!#$&*+,/:;=?@[]-._~".toList.contains c || c.isAlphanum) = true := by
  induction bs using EncodeToString.induct with
  | case1 => simp [EncodeToString]
  | case2 a =>
    intro c hc
    simp only [EncodeToString, List.mem_cons, List.mem_singleton, List.not_mem_nil, or_false] at hc
    rcases hc with rfl | rfl | rfl | rfl
    · exact encChar_keep _
    · exact encChar_keep _
    · decide
    · decide
  | case3 a b =>
    intro c hc
    simp only [EncodeToString, List.mem_cons, List.mem_singleton, List.not_mem_nil, or_false] at hc
    rcases hc with rfl | rfl | rfl | rfl
    · exact encChar_keep _
    · exact encChar_keep _
    · exact encChar_keep _
    · decide
  | case4 a b c rest ih =>
    intro d hd
    simp only [EncodeToString, List.mem_cons] at hd
    rcases hd with rfl | rfl | rfl | rfl | hd
    · exact encChar_keep _
    · exact encChar_keep _
    · exact encChar_keep _
    · exact encChar_keep _
    · exact ih d hd

/-- The URL normalizer leaves Base64 text as it is. -/
theorem urlNormalizer_encode (bs : List Byte) :
    urlNormalizer (EncodeToString bs) = EncodeToString bs :=
  urlNormalizer_keep _ (encode_keep bs)

theorem cssEscaper_plain (s : Str) (h : ∀ c ∈ s, cssReplacementTable c = none) :
    cssEscaper s = s := by
  induction s with
  | nil => rfl
  | cons c cs ih =>
    rw [cssEscaper, h c (List.mem_cons_self _ _)]
    simp only
    rw [ih (fun d hd => h d (List.mem_cons_of_mem _ hd))]

theorem urlFilter_plain (s : Str) (h : ∀ c ∈ s, cssReplacementTable c = none) :
    urlFilter s = s := by
  have hcolon : ':' ∉ s := by
    intro hmem
    exact absurd (h ':' hmem) (by decide)
  have hsafe : isSafeURL s = true := by
    unfold isSafeURL
    simp only
    rw [if_neg]
    rintro ⟨hc, _⟩
    exact hcolon (by simpa using hc)
  unfold urlFilter
  rw [if_pos hsafe]

/-! ## Where the entries of the table come from -/

theorem walkLoop_sourced (os : OS) (explicit : List Str) (baseDir : Str) (visits : List Visit)
    (p : Str) (order : List Str) (fm : FontMap) (k : Str) (hp : Visit.file p ∈ visits)
    (h : (fm.index k).SourcedFor os explicit baseDir visits k) :
    ((walkLoop os p (Split p) order fm).1.index k).SourcedFor os explicit baseDir visits k := by
  induction order generalizing fm with
  | nil => exact h
  | cons family rest ih =>
    unfold walkLoop
    split
    · rename_i hmatch
      split
      · exact h
      · split
        · exact h
        · rename_i data hread
          split
          · exact h
          · apply ih
            by_cases hk : family = k
            · subst hk
              rw [index_assign_self]
              exact ⟨rfl, Or.inr ⟨p, data, hread, hmatch, rfl, Or.inr ⟨hp, rfl⟩⟩⟩
            · rw [index_assign_ne _ _ _ _ hk]
              exact h
    · exact ih fm h

/-- A call of the walk function that is not skipped is a call for a file. -/
theorem visit_file_of_not_skipped (v : Visit) (h : ¬ (v.IsDir = true ∨ v.err = true)) :
    v = Visit.file v.p := by
  cases v with
  | file p => rfl
  | dir p err => exact absurd (Or.inl rfl) h

theorem visit_err_of_not_dir (v : Visit) (h : v.IsDir = false) : v.err = false := by
  cases v with
  | file p => rfl
  | dir p err => exact Bool.noConfusion h

theorem walkFrom_sourced (os : OS) (explicit : List Str) (baseDir : Str) (visits : List Visit)
    (ord : Nat → List Str) (i : Nat) (vs : List Visit) (fm : FontMap) (k : Str)
    (hvs : ∀ v ∈ vs, v ∈ visits)
    (h : (fm.index k).SourcedFor os explicit baseDir visits k) :
    ((walkFrom os ord i vs fm).1.index k).SourcedFor os explicit baseDir visits k := by
  induction vs generalizing fm i with
  | nil => exact h
  | cons v vs ih =>
    have hstep : ((genWalkFunc os (ord i) fm v).1.index k).SourcedFor os explicit baseDir
        visits k := by
      unfold genWalkFunc
      split
      · exact h
      · rename_i hreg
        have hv := hvs v (List.mem_cons_self _ _)
        rw [visit_file_of_not_skipped v hreg] at hv
        exact walkLoop_sourced os explicit baseDir visits v.p _ fm k hv h
    unfold walkFrom
    split
    · rename_i fm1 err heq
      rw [heq] at hstep
      exact hstep
    · rename_i fm1 heq
      rw [heq] at hstep
      exact ih (i + 1) fm1 (fun u hu => hvs u (List.mem_cons_of_mem _ hu)) hstep

theorem cmdLineLoop_sourced (os : OS) (explicit : List Str) (baseDir : Str)
    (visits : List Visit) (f : Str) (order : List Str) (fm : FontMap) (k : Str)
    (hf : f ∈ explicit) (h : (fm.index k).SourcedFor os explicit baseDir visits k) :
    ((cmdLineLoop os (os.Join baseDir f) f order fm).1.index k).SourcedFor os explicit baseDir
      visits k := by
  induction order generalizing fm with
  | nil => exact h
  | cons family rest ih =>
    unfold cmdLineLoop
    split
    · rename_i hmatch
      split
      · exact h
      · rename_i data hread
        apply ih
        by_cases hk : family = k
        · subst hk
          rw [index_assign_self]
          exact ⟨rfl, Or.inr ⟨_, data, hread, hmatch, rfl, Or.inl ⟨hf, rfl⟩⟩⟩
        · rw [index_assign_ne _ _ _ _ hk]
          exact h
    · exact ih fm h

theorem cmdLineFrom_sourced (os : OS) (explicit : List Str) (baseDir : Str)
    (visits : List Visit) (ord : Nat → List Str) (i : Nat) (fonts : List Str) (fm : FontMap)
    (k : Str) (hfonts : ∀ g ∈ fonts, g ∈ explicit)
    (h : (fm.index k).SourcedFor os explicit baseDir visits k) :
    ((cmdLineFrom os ord baseDir i fonts fm).1.index k).SourcedFor os explicit baseDir
      visits k := by
  induction fonts generalizing fm i with
  | nil => exact h
  | cons fontFile rest ih =>
    have hstep := cmdLineLoop_sourced os explicit baseDir visits fontFile (ord i) fm k
      (hfonts fontFile (List.mem_cons_self _ _)) h
    unfold cmdLineFrom
    simp only
    split
    · exact h
    · split
      · rename_i fm1 err heq
        rw [heq] at hstep
        exact hstep
      · rename_i fm1 heq
        rw [heq] at hstep
        exact ih (i + 1) fm1 (fun g hg => hfonts g (List.mem_cons_of_mem _ hg)) hstep

theorem cmdLinePass_sourced (os : OS) (ro : RangeOrders) (visits : List Visit) (fm : FontMap)
    (dir k : Str) (h : (fm.index k).SourcedFor os (os.Args.drop 2) dir visits k) :
    ((cmdLinePass os ro fm dir).1.index k).SourcedFor os (os.Args.drop 2) dir visits k := by
  unfold cmdLinePass ProcessCmdLineFonts
  split
  · exact cmdLineFrom_sourced os _ dir visits _ _ _ fm k (fun _ hg => hg) h
  · exact h

theorem foldl_extractStep_index (ms : List Str) (fonts : FontMap)
    (h : ∀ k ∈ fonts.keys, fonts.index k = ⟨k, false, [], []⟩) :
    ∀ k ∈ (ms.foldl extractStep fonts).keys,
      (ms.foldl extractStep fonts).index k = ⟨k, false, [], []⟩ := by
  induction ms generalizing fonts with
  | nil => exact h
  | cons m ms ih =>
    apply ih
    intro k hk
    unfold extractStep at hk ⊢
    simp only at hk ⊢
    split
    · rename_i hgen
      rw [if_pos hgen] at hk
      exact h k hk
    · rename_i hgen
      rw [if_neg hgen, mem_keys_assign] at hk
      by_cases hname : Trim m " '\"\t\n\r".toList = k
      · subst hname
        rw [index_assign_self]
      · rw [index_assign_ne _ _ _ _ hname]
        rcases hk with hk | hk
        · exact absurd hk.symm hname
        · exact h k hk

/-- Every entry of the extracted table is the fresh entry of its key. -/
theorem extractFonts_index (svg : Str) : ∀ k ∈ (extractFonts svg).keys,
    (extractFonts svg).index k = ⟨k, false, [], []⟩ :=
  foldl_extractStep_index _ [] (by simp [FontMap.keys])

/-! ## Occurrences -/

theorem contains_of_append (a sub b : Str) : Contains (a ++ sub ++ b) sub = true := by
  induction a with
  | nil =>
    cases hs : sub ++ b with
    | nil =>
      obtain ⟨h1, h2⟩ := List.append_eq_nil.mp hs
      subst h1 h2
      rfl
    | cons c cs =>
      rw [List.nil_append, hs, contains_cons, ← hs]
      have : sub.isPrefixOf (sub ++ b) = true := by
        rw [List.isPrefixOf_iff_prefix]
        exact List.prefix_append _ _
      rw [this, Bool.true_or]
  | cons c a ih =>
    rw [List.cons_append, List.cons_append, contains_cons, ih, Bool.or_true]

/-- Replacing one occurrence of a non-empty `old` in a text that contains it puts `new`
somewhere in the result. -/
theorem replaceAux_puts (old new : Str) (hold : old ≠ []) (s : Str)
    (h : Contains s old = true) :
    ∃ a b, replaceAux old new (some 1) 0 s = a ++ new ++ b := by
  induction s with
  | nil =>
    cases old with
    | nil => exact absurd rfl hold
    | cons c cs => simp [Contains] at h
  | cons c cs ih =>
    rw [replaceAux]
    by_cases hpre : old.isPrefixOf (c :: cs) = true
    · rw [if_pos ⟨by simp, hpre⟩]
      exact ⟨[], _, rfl⟩
    · rw [if_neg (fun hh => hpre hh.2)]
      rw [contains_cons] at h
      have hcs : Contains cs old = true := by
        rcases Bool.or_eq_true_iff.mp h with h | h
        · exact absurd h hpre
        · exact h
      obtain ⟨a, b, hab⟩ := ih hcs
      exact ⟨c :: a, b, by rw [hab]; rfl⟩

theorem flatten_of_mem (x : Str) (l : List Str) (hx : x ∈ l) :
    ∃ a b, l.flatten = a ++ x ++ b := by
  obtain ⟨s, t, rfl⟩ := List.append_of_mem hx
  exact ⟨s.flatten, t.flatten, by simp⟩

/-! ## The table of a successful run -/

/-- A run without error, with loops ranging over the keys of the extracted table, embeds a
table that has the extracted keys, passes `CheckAllFontsSet`, and whose entries all come
from files read. -/
theorem success_table (os : OS) (ro : RangeOrders) (svg dir out : Str)
    (hvalid : ro.Valid (extractFonts svg))
    (hok : FindEmbedFonts os ro svg dir = (out, none)) :
    ∃ fonts : FontMap, fonts.keys = (extractFonts svg).keys ∧ CheckAllFontsSet fonts = true ∧
      (∀ k ∈ fonts.keys,
        (fonts.index k).SourcedFor os (os.Args.drop 2) dir (os.Walk dir) k) ∧
      Embed ro.embed fonts svg = (out, none) := by
  obtain ⟨hvc, hvw, hvr, _⟩ := hvalid
  have hsrc0 : ∀ k ∈ (extractFonts svg).keys,
      ((extractFonts svg).index k).SourcedFor os (os.Args.drop 2) dir (os.Walk dir) k := by
    intro k hk
    rw [extractFonts_index svg k hk]
    exact ⟨rfl, Or.inl rfl⟩
  cases hcmd : cmdLinePass os ro (extractFonts svg) dir with
  | mk fonts e =>
    have hk : fonts.keys = (extractFonts svg).keys := by
      have := cmdLinePass_keys os ro (extractFonts svg) dir (fun i k hk => (hvc i).subset hk)
      rw [hcmd] at this
      exact this
    have hsrc : ∀ k ∈ fonts.keys,
        (fonts.index k).SourcedFor os (os.Args.drop 2) dir (os.Walk dir) k := by
      intro k hmem
      have := cmdLinePass_sourced os ro (os.Walk dir) (extractFonts svg) dir k
        (hsrc0 k (hk ▸ hmem))
      rw [hcmd] at this
      exact this
    have hnd : fonts.keys.Nodup := hk ▸ extractFonts_nodup svg
    cases e with
    | some err =>
      unfold FindEmbedFonts at hok
      rw [hcmd] at hok
      simp at hok
    | none =>
      cases hc : CheckAllFontsSet fonts with
      | true =>
        refine ⟨fonts, hk, hc, hsrc, ?_⟩
        unfold FindEmbedFonts at hok
        rw [hcmd] at hok
        simp only [hc, if_true, embed_eq] at hok
        rw [embed_eq]
        exact hok
      | false =>
        cases hwalk : Walk os ro.walk fonts dir with
        | mk fonts1 e1 =>
          have hmono := walk_check_mono os ro.walk fonts fonts1 dir hnd
            (fun i k hmem => hk ▸ (hvw i).subset hmem)
          have hsrc1 : ∀ k ∈ fonts1.keys,
              (fonts1.index k).SourcedFor os (os.Args.drop 2) dir (os.Walk dir) k := by
            intro k hmem
            have hkeys : fonts1.keys = fonts.keys := by
              have := walkFrom_keys os ro.walk 0 (os.Walk dir) fonts
                (fun i k hmem => hk ▸ (hvw i).subset hmem)
              unfold Walk at hwalk
              rw [hwalk] at this
              exact this
            have := walkFrom_sourced os (os.Args.drop 2) dir (os.Walk dir) ro.walk 0
              (os.Walk dir) fonts k (fun _ hv => hv) (hsrc k (hkeys ▸ hmem))
            unfold Walk at hwalk
            rw [hwalk] at this
            exact this
          cases e1 with
          | some err =>
            unfold FindEmbedFonts at hok
            rw [hcmd] at hok
            simp [hc, hwalk] at hok
          | none =>
            have hk1 := (hmono hwalk).1
            cases hc1 : CheckAllFontsSet fonts1 with
            | true =>
              refine ⟨fonts1, hk1.trans hk, hc1, hsrc1, ?_⟩
              unfold FindEmbedFonts at hok
              rw [hcmd] at hok
              simp only [hc, hwalk, hc1, embed_eq] at hok
              rw [embed_eq]
              simpa using hok
            | false =>
              have hrep : fonts1.IsOrder ro.report := by
                show ro.report.Perm fonts1.keys
                rw [hk1, hk]
                exact hvr
              obtain ⟨family, hfam, _, _⟩ := report_finds fonts1 ro.report (hk1 ▸ hnd) hrep hc1
              unfold FindEmbedFonts at hok
              rw [hcmd] at hok
              simp only [hc, hwalk, hc1, hfam] at hok
              simp at hok

/-! ## The fuel of the pattern search -/

theorem lazyValue_length (s v rest : Str) (h : lazyValue s = some (v, rest)) :
    rest.length < s.length := by
  induction s generalizing v with
  | nil => simp [lazyValue] at h
  | cons c cs ih =>
    rw [lazyValue] at h
    split at h
    · cases h
      exact Nat.lt_succ_self _
    · split at h
      · exact Option.noConfusion h
      · split at h
        · rename_i v1 rest1 heq
          cases h
          exact Nat.lt_succ_of_lt (ih v1 heq)
        · exact Option.noConfusion h

/-- The search visits every position: any fuel of at least the length of the text gives the
same matches. -/
theorem findAllFuel_enough (fuel1 fuel2 : Nat) (s : Str) (h1 : s.length ≤ fuel1)
    (h2 : s.length ≤ fuel2) : findAllFuel fuel1 s = findAllFuel fuel2 s := by
  induction fuel1 generalizing fuel2 s with
  | zero =>
    have : s = [] := List.length_eq_zero.mp (Nat.le_zero.mp h1)
    subst this
    cases fuel2 <;> rfl
  | succ fuel1 ih =>
    cases s with
    | nil => cases fuel2 <;> rfl
    | cons c cs =>
      cases fuel2 with
      | zero => simp at h2
      | succ fuel2 =>
        have hc1 : cs.length ≤ fuel1 := Nat.le_of_succ_le_succ h1
        have hc2 : cs.length ≤ fuel2 := Nat.le_of_succ_le_succ h2
        rw [findAllFuel, findAllFuel]
        split
        · split
          · rename_i v rest heq
            have hlt := lazyValue_length _ v rest heq
            have hdrop : (List.drop reLiteral.length (c :: cs)).length ≤ cs.length := by
              simp [reLiteral]
            rw [ih fuel2 rest (by omega) (by omega)]
          · exact ih fuel2 cs hc1 hc2
        · exact ih fuel2 cs hc1 hc2

/-! ## A text without declarations -/

theorem extractFonts_of_no_match (svg : Str) (h : FindAllStringSubmatch svg = []) :
    extractFonts svg = [] := by
  unfold extractFonts
  rw [h]
  rfl

theorem embed_no_fonts (svg : Str) :
    Embed [] [] svg = (Replace svg "</defs>".toList templateTail 1, none) := by
  rw [embed_eq]
  rfl

/-! ## The command-line pass, file after file -/

theorem cmdLineFrom_append (os : OS) (ord : Nat → List Str) (baseDir : Str) (i : Nat)
    (pre post : List Str) (fm : FontMap) :
    cmdLineFrom os ord baseDir i (pre ++ post) fm =
      match cmdLineFrom os ord baseDir i pre fm with
      | (fm1, some err) => (fm1, some err)
      | (fm1, none) => cmdLineFrom os ord baseDir (i + pre.length) post fm1 := by
  induction pre generalizing i fm with
  | nil =>
    simp only [List.nil_append, List.length_nil, Nat.add_zero]
    rw [cmdLineFrom]
  | cons fontFile rest ih =>
    rw [List.cons_append, cmdLineFrom, cmdLineFrom]
    split
    · rfl
    · split
      · rfl
      · rw [ih]
        simp only [List.length_cons]
        rw [show i + (rest.length + 1) = i + 1 + rest.length by omega]

theorem cmdLineFrom_missing (os : OS) (ord : Nat → List Str) (baseDir : Str) (i : Nat)
    (name : Str) (post : List Str) (fm : FontMap) (e : Str)
    (hstat : os.Stat (os.Join baseDir name) = some e) :
    cmdLineFrom os ord baseDir i (name :: post) fm = (fm, some e) := by
  rw [cmdLineFrom]
  simp only [hstat]

/-! ## Properties of an entry that both passes keep -/

/-- A property of the entry of `k` that holds before the loop of the walk function and of
every entry the loop can write for `k` holds after it. -/
theorem walkLoop_inv (Q : Font → Prop) (os : OS) (p f : Str) (order : List Str) (fm : FontMap)
    (k : Str) (hQ : Q (fm.index k))
    (hw : ∀ (data : List Byte) (file : Str),
      Q { Family := k, CmdLineSet := true, File := file, EncodedFont := EncodeToString data }) :
    Q ((walkLoop os p f order fm).1.index k) := by
  induction order generalizing fm with
  | nil => exact hQ
  | cons family rest ih =>
    unfold walkLoop
    split
    · split
      · exact hQ
      · split
        · exact hQ
        · split
          · exact hQ
          · apply ih
            by_cases hk : family = k
            · subst hk
              rw [index_assign_self]
              exact hw _ _
            · rw [index_assign_ne _ _ _ _ hk]
              exact hQ
    · exact ih fm hQ

theorem genWalkFunc_inv (Q : Font → Prop) (os : OS) (order : List Str) (fm : FontMap)
    (v : Visit) (k : Str) (hQ : Q (fm.index k))
    (hw : ∀ (data : List Byte) (file : Str),
      Q { Family := k, CmdLineSet := true, File := file, EncodedFont := EncodeToString data }) :
    Q ((genWalkFunc os order fm v).1.index k) := by
  unfold genWalkFunc
  split
  · exact hQ
  · exact walkLoop_inv Q os _ _ order fm k hQ hw

theorem walkFrom_inv (Q : Font → Prop) (os : OS) (ord : Nat → List Str) (i : Nat)
    (vs : List Visit) (fm : FontMap) (k : Str) (hQ : Q (fm.index k))
    (hw : ∀ (data : List Byte) (file : Str),
      Q { Family := k, CmdLineSet := true, File := file, EncodedFont := EncodeToString data }) :
    Q ((walkFrom os ord i vs fm).1.index k) := by
  induction vs generalizing fm i with
  | nil => exact hQ
  | cons v vs ih =>
    have hstep := genWalkFunc_inv Q os (ord i) fm v k hQ hw
    unfold walkFrom
    split
    · rename_i fm1 err heq
      rw [heq] at hstep
      exact hstep
    · rename_i fm1 heq
      rw [heq] at hstep
      exact ih (i + 1) fm1 hstep

theorem cmdLineLoop_inv (Q : Font → Prop) (os : OS) (p f : Str) (order : List Str)
    (fm : FontMap) (k : Str) (hQ : Q (fm.index k))
    (hw : ∀ (data : List Byte) (file : Str),
      Q { Family := k, CmdLineSet := true, File := file, EncodedFont := EncodeToString data }) :
    Q ((cmdLineLoop os p f order fm).1.index k) := by
  induction order generalizing fm with
  | nil => exact hQ
  | cons family rest ih =>
    unfold cmdLineLoop
    split
    · split
      · exact hQ
      · apply ih
        by_cases hk : family = k
        · subst hk
          rw [index_assign_self]
          exact hw _ _
        · rw [index_assign_ne _ _ _ _ hk]
          exact hQ
    · exact ih fm hQ

theorem cmdLineFrom_inv (Q : Font → Prop) (os : OS) (ord : Nat → List Str) (baseDir : Str)
    (i : Nat) (fonts : List Str) (fm : FontMap) (k : Str) (hQ : Q (fm.index k))
    (hw : ∀ (data : List Byte) (file : Str),
      Q { Family := k, CmdLineSet := true, File := file, EncodedFont := EncodeToString data }) :
    Q ((cmdLineFrom os ord baseDir i fonts fm).1.index k) := by
  induction fonts generalizing fm i with
  | nil => exact hQ
  | cons fontFile rest ih =>
    have hstep := cmdLineLoop_inv Q os (os.Join baseDir fontFile) fontFile (ord i) fm k hQ hw
    unfold cmdLineFrom
    simp only
    split
    · exact hQ
    · split
      · rename_i fm1 err heq
        rw [heq] at hstep
        exact hstep
      · rename_i fm1 heq
        rw [heq] at hstep
        exact ih (i + 1) fm1 hstep

/-! ## Trimming -/

theorem trim_getLast (s cutset : Str) (c : Char) (h : (Trim s cutset).getLast? = some c) :
    cutset.contains c = false := by
  unfold Trim at h
  rw [List.getLast?_reverse] at h
  have := List.head?_dropWhile_not (fun c => cutset.contains c)
    (s.dropWhile (fun c => cutset.contains c)).reverse
  rw [h] at this
  simpa using this

theorem trim_head (s cutset : Str) (c : Char) (h : (Trim s cutset).head? = some c) :
    cutset.contains c = false := by
  unfold Trim at h
  rw [List.head?_reverse] at h
  have hsuf := List.dropWhile_suffix (fun c => cutset.contains c)
    (l := (s.dropWhile (fun c => cutset.contains c)).reverse)
  obtain ⟨t, ht⟩ := hsuf
  have hne : ((s.dropWhile (fun c => cutset.contains c)).reverse.dropWhile
      (fun c => cutset.contains c)) ≠ [] := by
    intro hnil
    rw [hnil] at h
    exact Option.noConfusion h
  have hlast : (s.dropWhile (fun c => cutset.contains c)).reverse.getLast? = some c := by
    rw [← ht, List.getLast?_append_of_ne_nil _ hne]
    exact h
  rw [List.getLast?_reverse] at hlast
  have := List.head?_dropWhile_not (fun c => cutset.contains c) s
  rw [hlast] at this
  simpa using this

/-! ## The first match of the pattern -/

/-- No proper non-empty end of `font-family:` is a beginning of it: the colon stands only at
its end. -/
theorem reLiteral_border (q : Str) (hq : q ≠ []) (hpre : q <+: reLiteral) (hsuf : q <:+ reLiteral) :
    q = reLiteral := by
  obtain ⟨t, ht⟩ := hpre
  by_cases htn : t = []
  · rw [htn, List.append_nil] at ht
    exact ht
  · exfalso
    have hlast : q.getLast? = some ':' := by
      obtain ⟨u, hu⟩ := hsuf
      have : (u ++ q).getLast? = some ':' := by
        rw [hu]
        decide
      rw [List.getLast?_append_of_ne_nil _ hq] at this
      exact this
    have hmem : ':' ∈ q := List.mem_of_getLast?_eq_some hlast
    have hdrop : reLiteral.dropLast = q ++ t.dropLast := by
      rw [← ht, List.dropLast_append_of_ne_nil _ htn]
    have : ':' ∈ reLiteral.dropLast := by
      rw [hdrop]
      exact List.mem_append_left _ hmem
    exact absurd this (by decide)

/-- After a non-empty text that does not start with `font-family:`, the pattern written next
does not make it start with it. -/
theorem reLiteral_not_prefix (p r : Str) (hp : p ≠ []) (hno : reLiteral.isPrefixOf p = false) :
    reLiteral.isPrefixOf (p ++ (reLiteral ++ r)) = false := by
  cases h : reLiteral.isPrefixOf (p ++ (reLiteral ++ r)) with
  | false => rfl
  | true =>
    exfalso
    rw [List.isPrefixOf_iff_prefix] at h
    have hnp : ¬ reLiteral <+: p := by
      rw [← List.isPrefixOf_iff_prefix, hno]
      exact Bool.noConfusion
    rcases List.prefix_or_prefix_of_prefix h (List.prefix_append p _) with h1 | h1
    · exact hnp h1
    · obtain ⟨q, hq⟩ := h1
      have hqne : q ≠ [] := by
        intro hqn
        rw [hqn, List.append_nil] at hq
        exact hnp (hq ▸ List.prefix_refl _)
      have h2 : q <+: reLiteral ++ r := by
        have h0 : p ++ q <+: p ++ (reLiteral ++ r) := by
          rw [hq]
          exact h
        exact (List.prefix_append_right_inj p).mp h0
      have hlen : q.length ≤ reLiteral.length := by
        rw [← hq, List.length_append]
        omega
      have h3 : q <+: reLiteral :=
        List.prefix_of_prefix_length_le h2 (List.prefix_append _ _) hlen
      have h4 : q <:+ reLiteral := ⟨p, hq⟩
      have h5 := reLiteral_border q hqne h3 h4
      rw [h5] at hq
      have := congrArg List.length hq
      rw [List.length_append] at this
      have hpl : p.length ≠ 0 := fun h0 => hp (List.length_eq_zero.mp h0)
      omega

theorem lazyValue_value (v b : Str) (hsemi : ';' ∉ v) (hnl : '\n' ∉ v) :
    lazyValue (v ++ ';' :: b) = some (v, b) := by
  induction v with
  | nil =>
    rw [List.nil_append, lazyValue, if_pos rfl]
  | cons c cs ih =>
    have h1 : c ≠ ';' := fun h => hsemi (h ▸ List.mem_cons_self _ _)
    have h2 : c ≠ '\n' := fun h => hnl (h ▸ List.mem_cons_self _ _)
    rw [List.cons_append, lazyValue, if_neg h1, if_neg h2,
      ih (fun h => hsemi (List.mem_cons_of_mem _ h)) (fun h => hnl (List.mem_cons_of_mem _ h))]

/-- The first match of the pattern in `a ++ "font-family:" ++ v ++ ";" ++ b`, when `a` has no
`font-family:` and `v` neither `;` nor a newline, has the value `v`. -/
theorem findAllFuel_first (a v b : Str) (ha : Contains a reLiteral = false) (hsemi : ';' ∉ v)
    (hnl : '\n' ∉ v) :
    ∀ fuel, (a ++ (reLiteral ++ (v ++ ';' :: b))).length ≤ fuel →
      ∃ rest, findAllFuel fuel (a ++ (reLiteral ++ (v ++ ';' :: b))) = v :: rest := by
  induction a with
  | nil =>
    intro fuel hfuel
    cases fuel with
    | zero => simp [reLiteral] at hfuel
    | succ fuel =>
      have hs : [] ++ (reLiteral ++ (v ++ ';' :: b)) =
          'f' :: ("ont-family:".toList ++ (v ++ ';' :: b)) := rfl
      rw [hs, findAllFuel]
      have hpre : reLiteral.isPrefixOf ('f' :: ("ont-family:".toList ++ (v ++ ';' :: b))) = true := by
        rw [List.isPrefixOf_iff_prefix]
        exact ⟨v ++ ';' :: b, rfl⟩
      rw [if_pos hpre]
      have hdrop : List.drop reLiteral.length ('f' :: ("ont-family:".toList ++ (v ++ ';' :: b))) =
          v ++ ';' :: b := rfl
      rw [hdrop, lazyValue_value v b hsemi hnl]
      exact ⟨_, rfl⟩
  | cons c a ih =>
    intro fuel hfuel
    rw [contains_cons, Bool.or_eq_false_iff] at ha
    cases fuel with
    | zero => simp at hfuel
    | succ fuel =>
      rw [List.cons_append, findAllFuel]
      have hnp := reLiteral_not_prefix (c :: a) (v ++ ';' :: b) (List.cons_ne_nil _ _) ha.1
      rw [List.cons_append] at hnp
      rw [if_neg (by rw [hnp]; exact Bool.noConfusion)]
      exact ih ha.2 fuel (by simpa using hfuel)

/-! ## The scan, file after file -/

theorem walkFrom_append (os : OS) (ord : Nat → List Str) (i : Nat) (pre post : List Visit)
    (fm : FontMap) :
    walkFrom os ord i (pre ++ post) fm =
      match walkFrom os ord i pre fm with
      | (fm1, some err) => (fm1, some err)
      | (fm1, none) => walkFrom os ord (i + pre.length) post fm1 := by
  induction pre generalizing i fm with
  | nil =>
    simp only [List.nil_append, List.length_nil, Nat.add_zero]
    rw [walkFrom]
  | cons v rest ih =>
    rw [List.cons_append, walkFrom, walkFrom]
    split
    · rfl
    · rw [ih]
      simp only [List.length_cons]
      rw [show i + (rest.length + 1) = i + 1 + rest.length by omega]

/-- The loop of the walk function leaves the entry of a family the file does not match. -/
theorem walkLoop_nomatch (os : OS) (p f : Str) (order : List Str) (fm : FontMap) (k : Str)
    (hk : matchesFamily f k = false) : (walkLoop os p f order fm).1.index k = fm.index k := by
  induction order generalizing fm with
  | nil => rfl
  | cons family rest ih =>
    unfold walkLoop
    split
    · rename_i hmatch
      split
      · rfl
      · split
        · rfl
        · split
          · rfl
          · have hne : family ≠ k := by
              rintro rfl
              rw [hk] at hmatch
              exact Bool.noConfusion hmatch
            rw [ih, index_assign_ne _ _ _ _ hne]
    · exact ih fm

/-- Visits none of whose regular files matches a family leave its entry. -/
theorem walkFrom_nomatch (os : OS) (ord : Nat → List Str) (i : Nat) (vs : List Visit)
    (fm : FontMap) (k : Str)
    (hk : ∀ u ∈ vs, u.IsDir = false → matchesFamily (Split u.p) k = false) :
    (walkFrom os ord i vs fm).1.index k = fm.index k := by
  induction vs generalizing fm i with
  | nil => rfl
  | cons v vs ih =>
    have hstep : (genWalkFunc os (ord i) fm v).1.index k = fm.index k := by
      unfold genWalkFunc
      split
      · rfl
      · rename_i hreg
        have hd : v.IsDir = false := by
          cases h : v.IsDir with
          | false => rfl
          | true => exact absurd (Or.inl h) hreg
        exact walkLoop_nomatch os _ _ _ fm k (hk v (List.mem_cons_self _ _) hd)
    unfold walkFrom
    split
    · rename_i fm1 err heq
      rw [heq] at hstep
      exact hstep
    · rename_i fm1 heq
      rw [heq] at hstep
      simp only at hstep
      rw [ih (i + 1) fm1 (fun u hu => hk u (List.mem_cons_of_mem _ hu)), hstep]

/-- When the loop of the walk function ranges once over each family, ends without error, and
the file matches no locked family, every family the file matches gets the file. -/
theorem walkLoop_writes (os : OS) (p f : Str) (order : List Str) (fm : FontMap) (family : Str)
    (hnodup : order.Nodup) (hin : family ∈ order) (hmatch : matchesFamily f family = true)
    (hfree : ∀ g ∈ order, matchesFamily f g = true → (fm.index g).CmdLineSet = false)
    (hnoerr : (walkLoop os p f order fm).2 = none) :
    ∃ data, os.ReadFile p = .ok data ∧
      (walkLoop os p f order fm).1.index family =
        { Family := family, CmdLineSet := true, File := f, EncodedFont := EncodeToString data } := by
  induction order generalizing fm with
  | nil => simp at hin
  | cons g rest ih =>
    obtain ⟨hg, hrest⟩ := List.nodup_cons.mp hnodup
    rw [walkLoop] at hnoerr ⊢
    by_cases hm : matchesFamily f g = true
    · have hlock := hfree g (List.mem_cons_self _ _) hm
      rw [if_pos hm, hlock] at hnoerr ⊢
      simp only [Bool.false_eq_true, if_false] at hnoerr ⊢
      cases hread : os.ReadFile p with
      | error err =>
        rw [hread] at hnoerr
        simp at hnoerr
      | ok data =>
        rw [hread] at hnoerr
        simp only at hnoerr ⊢
        by_cases hlen : (fm.index g).EncodedFont.length > 0
        · rw [if_pos hlen] at hnoerr
          simp at hnoerr
        · rw [if_neg hlen] at hnoerr ⊢
          by_cases hgf : g = family
          · subst hgf
            refine ⟨data, rfl, ?_⟩
            rw [walkLoop_index os p f rest _ g
              (Or.inl (by rw [index_assign_self]))]
            exact index_assign_self _ _ _
          · have hin2 : family ∈ rest := by
              rcases List.mem_cons.mp hin with h | h
              · exact absurd h.symm hgf
              · exact h
            obtain ⟨data2, hread2, hidx⟩ := ih _ hrest hin2
              (fun h hh hmh => by
                have hne : g ≠ h := fun e => hg (e ▸ hh)
                rw [index_assign_ne _ _ _ _ hne]
                exact hfree h (List.mem_cons_of_mem _ hh) hmh)
              hnoerr
            exact ⟨data2, hread.symm.trans hread2, hidx⟩
    · have hgf : g ≠ family := by
        rintro rfl
        exact hm hmatch
      have hin2 : family ∈ rest := by
        rcases List.mem_cons.mp hin with h | h
        · exact absurd h.symm hgf
        · exact h
      rw [if_neg hm] at hnoerr ⊢
      exact ih fm hrest hin2 (fun h hh hmh => hfree h (List.mem_cons_of_mem _ hh) hmh) hnoerr

/-! ## The command-line pass on existing, readable files -/

theorem cmdLineLoop_ok (os : OS) (p f : Str) (order : List Str) (fm : FontMap) (data : List Byte)
    (hread : os.ReadFile p = .ok data) : (cmdLineLoop os p f order fm).2 = none := by
  induction order generalizing fm with
  | nil => rfl
  | cons family rest ih =>
    rw [cmdLineLoop, hread]
    split
    · exact ih _
    · exact ih fm

theorem cmdLineLoop_nomatch (os : OS) (p f : Str) (order : List Str) (fm : FontMap) (k : Str)
    (hk : matchesFamily f k = false) : (cmdLineLoop os p f order fm).1.index k = fm.index k := by
  induction order generalizing fm with
  | nil => rfl
  | cons family rest ih =>
    unfold cmdLineLoop
    split
    · rename_i hmatch
      split
      · rfl
      · have hne : family ≠ k := by
          rintro rfl
          rw [hk] at hmatch
          exact Bool.noConfusion hmatch
        rw [ih, index_assign_ne _ _ _ _ hne]
    · exact ih fm

/-- The loop for a readable file gives the file to every family it ranges over and the
file matches, whatever the entry was. -/
theorem cmdLineLoop_writes (os : OS) (p f : Str) (order : List Str) (fm : FontMap)
    (family : Str) (data : List Byte) (hread : os.ReadFile p = .ok data)
    (hmatch : matchesFamily f family = true)
    (hin : family ∈ order ∨ fm.index family =
      { Family := family, CmdLineSet := true, File := f, EncodedFont := EncodeToString data }) :
    (cmdLineLoop os p f order fm).1.index family =
      { Family := family, CmdLineSet := true, File := f, EncodedFont := EncodeToString data } := by
  induction order generalizing fm with
  | nil =>
    rcases hin with h | h
    · simp at h
    · exact h
  | cons g rest ih =>
    rw [cmdLineLoop, hread]
    by_cases hm : matchesFamily f g = true
    · rw [if_pos hm]
      simp only
      apply ih
      by_cases hgf : g = family
      · subst hgf
        exact Or.inr (index_assign_self _ _ _)
      · rw [index_assign_ne _ _ _ _ hgf]
        rcases hin with h | h
        · rcases List.mem_cons.mp h with h2 | h2
          · exact absurd h2.symm hgf
          · exact Or.inl h2
        · exact Or.inr h
    · rw [if_neg hm]
      apply ih
      rcases hin with h | h
      · rcases List.mem_cons.mp h with h2 | h2
        · exact absurd (h2 ▸ hmatch) hm
        · exact Or.inl h2
      · exact Or.inr h

theorem cmdLineFrom_ok (os : OS) (ord : Nat → List Str) (baseDir : Str) (i : Nat)
    (fonts : List Str) (fm : FontMap)
    (hexist : ∀ g ∈ fonts, os.Stat (os.Join baseDir g) = none ∧
      ∃ d, os.ReadFile (os.Join baseDir g) = .ok d) :
    (cmdLineFrom os ord baseDir i fonts fm).2 = none := by
  induction fonts generalizing fm i with
  | nil => rfl
  | cons fontFile rest ih =>
    obtain ⟨hstat, d, hread⟩ := hexist fontFile (List.mem_cons_self _ _)
    have hloop := cmdLineLoop_ok os (os.Join baseDir fontFile) fontFile (ord i) fm d hread
    rw [cmdLineFrom]
    simp only [hstat]
    split
    · rename_i fm1 err heq
      rw [heq] at hloop
      exact absurd hloop (by simp)
    · exact ih _ _ (fun g hg => hexist g (List.mem_cons_of_mem _ hg))

theorem cmdLineFrom_nomatch (os : OS) (ord : Nat → List Str) (baseDir : Str) (i : Nat)
    (fonts : List Str) (fm : FontMap) (k : Str)
    (hk : ∀ g ∈ fonts, matchesFamily g k = false) :
    (cmdLineFrom os ord baseDir i fonts fm).1.index k = fm.index k := by
  induction fonts generalizing fm i with
  | nil => rfl
  | cons fontFile rest ih =>
    have hstep := cmdLineLoop_nomatch os (os.Join baseDir fontFile) fontFile (ord i) fm k
      (hk fontFile (List.mem_cons_self _ _))
    rw [cmdLineFrom]
    split
    · rfl
    · split
      · rename_i fm1 err heq
        rw [heq] at hstep
        exact hstep
      · rename_i fm1 heq
        rw [heq] at hstep
        simp only at hstep
        rw [ih (i + 1) fm1 (fun g hg => hk g (List.mem_cons_of_mem _ hg)), hstep]

/-! ## Entries that are not locked have no encoding -/

theorem foldl_extractStep_encoded (ms : List Str) (fonts : FontMap) (k : Str)
    (h : (fonts.index k).EncodedFont = []) :
    ((ms.foldl extractStep fonts).index k).EncodedFont = [] := by
  induction ms generalizing fonts with
  | nil => exact h
  | cons m ms ih =>
    apply ih
    unfold extractStep
    simp only
    split
    · exact h
    · by_cases hname : Trim m " '\"\t\n\r".toList = k
      · subst hname
        rw [index_assign_self]
      · rw [index_assign_ne _ _ _ _ hname]
        exact h

theorem extractFonts_encoded (svg k : Str) : ((extractFonts svg).index k).EncodedFont = [] :=
  foldl_extractStep_encoded _ [] k rfl

/-- In a table whose unlocked entries have no encoding, the loop of the walk function can
only fail with an error of `ReadFile`. -/
theorem walkLoop_error (os : OS) (p f : Str) (order : List Str) (fm : FontMap) (e : Str)
    (hinv : ∀ k, (fm.index k).CmdLineSet = false → (fm.index k).EncodedFont = [])
    (herr : (walkLoop os p f order fm).2 = some e) : os.ReadFile p = .error e := by
  induction order generalizing fm with
  | nil => simp [walkLoop] at herr
  | cons family rest ih =>
    rw [walkLoop] at herr
    split at herr
    · split at herr
      · simp at herr
      · rename_i hlock
        split at herr
        · rename_i err hread
          simp only [Option.some.injEq] at herr
          rw [← herr]
          exact hread
        · split at herr
          · rename_i hlen
            have := hinv family (by simpa using hlock)
            rw [this] at hlen
            simp at hlen
          · refine ih _ ?_ herr
            intro k
            by_cases hk : family = k
            · subst hk
              rw [index_assign_self]
              intro h
              exact Bool.noConfusion h
            · rw [index_assign_ne _ _ _ _ hk]
              exact hinv k
    · exact ih fm hinv herr

theorem walkFrom_error (os : OS) (ord : Nat → List Str) (i : Nat) (vs : List Visit)
    (fm : FontMap) (e : Str)
    (hinv : ∀ k, (fm.index k).CmdLineSet = false → (fm.index k).EncodedFont = [])
    (herr : (walkFrom os ord i vs fm).2 = some e) : ∃ p, os.ReadFile p = .error e := by
  induction vs generalizing fm i with
  | nil => simp [walkFrom] at herr
  | cons v vs ih =>
    have hstep : ∀ k, ((genWalkFunc os (ord i) fm v).1.index k).CmdLineSet = false →
        ((genWalkFunc os (ord i) fm v).1.index k).EncodedFont = [] := fun k =>
      genWalkFunc_inv (fun x => x.CmdLineSet = false → x.EncodedFont = []) os (ord i) fm v k
        (hinv k) (fun _ _ h => Bool.noConfusion h)
    rw [walkFrom] at herr
    split at herr
    · rename_i fm1 err heq
      simp only [Option.some.injEq] at herr
      subst herr
      unfold genWalkFunc at heq
      split at heq
      · simp at heq
      · exact ⟨v.p, walkLoop_error os v.p _ _ fm err hinv (by rw [heq])⟩
    · rename_i fm1 heq
      rw [heq] at hstep
      exact ih (i + 1) fm1 hstep herr

/-! ## Claims -/

/-- C1, evaluated on the scenario of the specification: the directory holds both
`AcmeSans-Bold.ttf` and `AcmeSans-Regular.ttf`, no file is given on the command line. The
first file met locks the family, the second one is skipped as if the family had been set on
the command line: the walk returns no error, the family keeps the first file, and
`FindEmbedFonts` succeeds. -/
theorem two_matching_files_no_error :
    matchesFamily "AcmeSans-Bold.ttf".toList acmeFamily = true ∧
      matchesFamily "AcmeSans-Regular.ttf".toList acmeFamily = true ∧
      (Walk (acmeOS argsPlain visitsBoth) (fun _ => [acmeFamily]) (extractFonts acmeSvg)
        "/work".toList).2 = none ∧
      ((Walk (acmeOS argsPlain visitsBoth) (fun _ => [acmeFamily]) (extractFonts acmeSvg)
        "/work".toList).1.index acmeFamily).File = "AcmeSans-Bold.ttf".toList ∧
      (FindEmbedFonts (acmeOS argsPlain visitsBoth) (singleOrders acmeFamily) acmeSvg
        "/work".toList).2 = none := by
  decide

/-- C2, refuted as stated: for an SVG text without `</defs>`, `Embed` returns no error; it
hands back the text as it is. -/
theorem embed_missing_anchor_no_error :
    Contains "<svg></svg>".toList "</defs>".toList = false ∧
      Embed [acmeFamily] acmeLocked "<svg></svg>".toList = ("<svg></svg>".toList, none) := by
  decide

/-- C2, amended. For every font table and every SVG text with no occurrence of `</defs>`,
`Embed` returns the text unchanged and no error; `FindEmbedFonts` then returns the text
unchanged as well, with or without an error from the resolution. -/
theorem embed_missing_anchor (os : OS) (ro : RangeOrders) (order : List Str) (fm : FontMap)
    (svg dir : Str) (hno : Contains svg "</defs>".toList = false) :
    Embed order fm svg = (svg, none) ∧ (FindEmbedFonts os ro svg dir).1 = svg := by
  have hE : ∀ order fm, Embed order fm svg = (svg, none) := by
    intro order fm
    rw [embed_eq, Replace]
    simp only [replaceAux_absent _ _ _ _ hno]
  refine ⟨hE order fm, ?_⟩
  unfold FindEmbedFonts
  simp only [hE]
  repeat' split
  all_goals rfl

/-- Witness of C2 amended. -/
theorem embed_missing_anchor_witness :
    Contains "<svg></svg>".toList "</defs>".toList = false ∧
      Embed [acmeFamily] acmeLocked "<svg></svg>".toList = ("<svg></svg>".toList, none) ∧
      (FindEmbedFonts (acmeOS argsPlain visitsRegular) (singleOrders acmeFamily)
        "<svg></svg>".toList "/work".toList).1 = "<svg></svg>".toList :=
  ⟨by decide, embed_missing_anchor _ _ _ _ _ _ (by decide)⟩

/-- C3. Embed splice: for every font table `fm` with distinct keys, every order of the loop
over it, and every SVG text `p ++ "</defs>" ++ s` where `p` has no occurrence of `</defs>`,
`Embed` returns `p ++ B ++ s` without error; `p` and `s` are reproduced as they are, so a
later `</defs>` in `s` stays. `B` is, for each entry of `fm` once (in some order), a style
element holding the rule `@font-face` with `font-family: '...'` (the family as the template
escapes it) and `src: url('data:application/x-font-ttf;base64,...')` (the encoded font),
and after these rules the `</defs>` tag, between a newline and a tab on either side. -/
theorem embed_splice (order : List Str) (fm : FontMap) (p s : Str)
    (hnd : fm.keys.Nodup) (horder : fm.IsOrder order)
    (hp : Contains p "</defs>".toList = false) :
    ∃ fonts : List Font, fonts.Perm (fm.map Prod.snd) ∧
      Embed order fm (p ++ "</defs>".toList ++ s) =
        (p ++
          ((fonts.map (fun f =>
              "\n\t\t<style type=\"text/css\">\n\t\t<![CDATA[\n\t\t@font-face \x7b\n\t\t\tfont-family: '".toList ++
                cssEscaper (urlFilter f.Family) ++
                "';\n\t\t\tsrc: url('data:application/x-font-ttf;base64,".toList ++
                urlNormalizer f.EncodedFont ++
                "');\n\t\t\t\x7d\n\t\t]]>\n\t\t</style>".toList)).flatten ++
            "\n\t</defs>\n\t".toList) ++ s, none) := by
  refine ⟨order.map fm.index, ?_, ?_⟩
  · have h1 : (order.map fm.index).Perm (fm.keys.map fm.index) := List.Perm.map _ horder
    have h2 : fm.keys.map fm.index = fm.map Prod.snd := by
      unfold FontMap.keys
      rw [List.map_map]
      apply List.map_congr_left
      intro e he
      exact index_of_mem fm hnd e.1 e.2 he
    rw [← h2]
    exact h1
  · rw [embed_eq, Replace]
    exact congrArg (fun x => (x, none))
      (replaceAux_first '<' "/defs>".toList _ p s (by decide) hp)

set_option maxRecDepth 20000 in
/-- Witness of C3: the block, with the rule of `Acme Sans`, goes before the first `</defs>`;
the second one stays. -/
theorem embed_splice_witness :
    acmeLocked.keys.Nodup ∧ acmeLocked.IsOrder [acmeFamily] ∧
      Contains "<svg><defs>".toList "</defs>".toList = false ∧
      Embed [acmeFamily] acmeLocked
          ("<svg><defs>".toList ++ "</defs>".toList ++ "<defs></defs></svg>".toList) =
        ("<svg><defs>\n\t\t<style type=\"text/css\">\n\t\t<![CDATA[\n\t\t@font-face \x7b\n\t\t\tfont-family: 'Acme Sans';\n\t\t\tsrc: url('data:application/x-font-ttf;base64,AAEAAEL/');\n\t\t\t\x7d\n\t\t]]>\n\t\t</style>\n\t</defs>\n\t<defs></defs></svg>".toList,
          none) ∧
      ∃ fonts : List Font, fonts.Perm (acmeLocked.map Prod.snd) ∧
        Embed [acmeFamily] acmeLocked
            ("<svg><defs>".toList ++ "</defs>".toList ++ "<defs></defs></svg>".toList) =
          ("<svg><defs>".toList ++
            ((fonts.map (fun f =>
                "\n\t\t<style type=\"text/css\">\n\t\t<![CDATA[\n\t\t@font-face \x7b\n\t\t\tfont-family: '".toList ++
                  cssEscaper (urlFilter f.Family) ++
                  "';\n\t\t\tsrc: url('data:application/x-font-ttf;base64,".toList ++
                  urlNormalizer f.EncodedFont ++
                  "');\n\t\t\t\x7d\n\t\t]]>\n\t\t</style>".toList)).flatten ++
              "\n\t</defs>\n\t".toList) ++ "<defs></defs></svg>".toList, none) :=
  ⟨by decide, by decide, by decide, by decide,
    embed_splice [acmeFamily] acmeLocked _ _ (by decide) (by decide) (by decide)⟩

/-- C4. Lock precedence: for every font table, every family whose entry has
`CmdLineSet = true`, and every sequence of scanned files (with every order of the loops
over the table), the entry of that family after the scan pass is identical to its entry
before the scan pass, whether or not the scan ends in an error. -/
theorem lock_precedence (os : OS) (ord : Nat → List Str) (fm : FontMap) (baseDir family : Str)
    (hlocked : (fm.index family).CmdLineSet = true) :
    (Walk os ord fm baseDir).1.index family = fm.index family :=
  walkFrom_index os ord 0 (os.Walk baseDir) fm family (Or.inl hlocked)

/-- Witness of C4: the entry locked by `AcmeSans-Bold.ttf` survives a scan that meets both
files. -/
theorem lock_precedence_witness :
    (acmeLocked.index acmeFamily).CmdLineSet = true ∧
      (Walk (acmeOS argsBold visitsBoth) (fun _ => [acmeFamily]) acmeLocked
        "/work".toList).1.index acmeFamily = acmeLocked.index acmeFamily :=
  ⟨by decide, lock_precedence _ _ _ _ _ (by decide)⟩

/-- C5. Explicit files short-circuit the scan: when the command-line pass ends without error
and leaves every family with a non-empty `EncodedFont`, `FindEmbedFonts` returns what `Embed`
makes of the table of that pass, and returns the same for every other content of the
directory walk and every other order of the loops of the scan. -/
theorem explicit_files_short_circuit (os : OS) (ro : RangeOrders) (svg dir : Str)
    (fonts : FontMap) (hcmd : cmdLinePass os ro (extractFonts svg) dir = (fonts, none))
    (hall : CheckAllFontsSet fonts = true) (W : Str → List Visit) (walkOrder : Nat → List Str)
    (report : List Str) :
    FindEmbedFonts os ro svg dir = Embed ro.embed fonts svg ∧
      FindEmbedFonts { os with Walk := W } { ro with walk := walkOrder, report := report } svg dir =
        FindEmbedFonts os ro svg dir := by
  have hcmd2 : cmdLinePass { os with Walk := W } { ro with walk := walkOrder, report := report }
      (extractFonts svg) dir = (fonts, none) := by
    rw [← hcmd]
    exact cmdLinePass_congr { os with Walk := W } os
      { ro with walk := walkOrder, report := report } ro rfl rfl rfl rfl rfl _ _
  have h1 : FindEmbedFonts os ro svg dir = Embed ro.embed fonts svg := by
    unfold FindEmbedFonts
    rw [hcmd]
    simp only [hall, if_true, embed_eq]
  refine ⟨h1, ?_⟩
  rw [h1]
  unfold FindEmbedFonts
  rw [hcmd2]
  simp only [hall, if_true, embed_eq]

/-- Witness of C5: `AcmeSans-Bold.ttf` is given on the command line; the directory holds both
files or only the other one, and the result is the same, with the explicit file embedded. -/
theorem explicit_files_short_circuit_witness :
    cmdLinePass (acmeOS argsBold visitsBoth) (singleOrders acmeFamily) (extractFonts acmeSvg)
        "/work".toList = (acmeLocked, none) ∧
      CheckAllFontsSet acmeLocked = true ∧
      FindEmbedFonts (acmeOS argsBold visitsBoth) (singleOrders acmeFamily) acmeSvg
          "/work".toList = Embed [acmeFamily] acmeLocked acmeSvg ∧
      FindEmbedFonts (acmeOS argsBold visitsRegular) (singleOrders acmeFamily) acmeSvg
          "/work".toList =
        FindEmbedFonts (acmeOS argsBold visitsBoth) (singleOrders acmeFamily) acmeSvg
          "/work".toList :=
  ⟨by decide, by decide,
    explicit_files_short_circuit (acmeOS argsBold visitsBoth) (singleOrders acmeFamily) acmeSvg
      "/work".toList acmeLocked (by decide) (by decide) (fun _ => visitsRegular)
      (fun _ => [acmeFamily]) [acmeFamily]⟩

/-- C6. Unresolved families are fatal. For every run whose loops range over the keys of the
extracted table: if the command-line pass and the scan pass end without error and leave
some family with an empty `EncodedFont`, `FindEmbedFonts` fails with the error
`No matching font file found for font-family: ` followed by the name of a family of the
table whose `EncodedFont` is empty, and hands back the input. Conversely, whenever
`FindEmbedFonts` returns without error its result is `Embed` of a table for which
`CheckAllFontsSet` holds; the check holds for the table without families. -/
theorem unresolved_families_fatal (os : OS) (ro : RangeOrders) (svg dir : Str)
    (hvalid : ro.Valid (extractFonts svg)) :
    (∀ fonts fonts1 : FontMap,
        cmdLinePass os ro (extractFonts svg) dir = (fonts, none) →
        Walk os ro.walk fonts dir = (fonts1, none) →
        CheckAllFontsSet fonts1 = false →
        ∃ family, family ∈ fonts1.keys ∧ (fonts1.index family).EncodedFont = [] ∧
          FindEmbedFonts os ro svg dir =
            (svg, some ("No matching font file found for font-family: ".toList ++ family))) ∧
      ((FindEmbedFonts os ro svg dir).2 = none →
        ∃ fonts : FontMap, CheckAllFontsSet fonts = true ∧
          FindEmbedFonts os ro svg dir = Embed ro.embed fonts svg) ∧
      CheckAllFontsSet [] = true := by
  obtain ⟨hvc, hvw, hvr, _⟩ := hvalid
  have hkeys : ∀ fonts, cmdLinePass os ro (extractFonts svg) dir = (fonts, none) →
      fonts.keys = (extractFonts svg).keys := by
    intro fonts hcmd
    have := cmdLinePass_keys os ro (extractFonts svg) dir (fun i k hk => (hvc i).subset hk)
    rw [hcmd] at this
    exact this
  have hfind : ∀ fonts fonts1 : FontMap,
      cmdLinePass os ro (extractFonts svg) dir = (fonts, none) →
      Walk os ro.walk fonts dir = (fonts1, none) →
      CheckAllFontsSet fonts1 = false →
      CheckAllFontsSet fonts = false ∧
        ∃ family, ro.report.find? (fun family => (fonts1.index family).EncodedFont.length = 0) =
          some family ∧ family ∈ fonts1.keys ∧ (fonts1.index family).EncodedFont = [] := by
    intro fonts fonts1 hcmd hwalk hcheck1
    have hk := hkeys fonts hcmd
    have hnd : fonts.keys.Nodup := hk ▸ extractFonts_nodup svg
    have hmono := walk_check_mono os ro.walk fonts fonts1 dir hnd
      (fun i k hmem => hk ▸ (hvw i).subset hmem) hwalk
    constructor
    · cases hc : CheckAllFontsSet fonts with
      | false => rfl
      | true =>
        rw [hmono.2 hc] at hcheck1
        exact Bool.noConfusion hcheck1
    · refine report_finds fonts1 ro.report (hmono.1 ▸ hnd) ?_ hcheck1
      show ro.report.Perm fonts1.keys
      rw [hmono.1, hk]
      exact hvr
  refine ⟨?_, ?_, rfl⟩
  · intro fonts fonts1 hcmd hwalk hcheck1
    obtain ⟨hcheck0, family, hfam, hmem, hemp⟩ := hfind fonts fonts1 hcmd hwalk hcheck1
    refine ⟨family, hmem, hemp, ?_⟩
    unfold FindEmbedFonts
    rw [hcmd]
    simp only [hcheck0, hwalk, hcheck1, hfam]
    simp [noMatchError]
  · intro hok
    cases hcmd : cmdLinePass os ro (extractFonts svg) dir with
    | mk fonts e =>
      cases e with
      | some err =>
        unfold FindEmbedFonts at hok
        rw [hcmd] at hok
        simp at hok
      | none =>
        cases hc : CheckAllFontsSet fonts with
        | true =>
          refine ⟨fonts, hc, ?_⟩
          unfold FindEmbedFonts
          rw [hcmd]
          simp only [hc, if_true, embed_eq]
        | false =>
          cases hwalk : Walk os ro.walk fonts dir with
          | mk fonts1 e1 =>
            cases e1 with
            | some err =>
              unfold FindEmbedFonts at hok
              rw [hcmd] at hok
              simp [hc, hwalk] at hok
            | none =>
              cases hc1 : CheckAllFontsSet fonts1 with
              | true =>
                refine ⟨fonts1, hc1, ?_⟩
                unfold FindEmbedFonts
                rw [hcmd]
                simp [hc, hwalk, hc1, embed_eq]
              | false =>
                obtain ⟨_, family, hfam, _, _⟩ := hfind fonts fonts1 hcmd hwalk hc1
                unfold FindEmbedFonts at hok
                rw [hcmd] at hok
                simp only [hc, hwalk, hc1, hfam] at hok
                simp at hok

/-- Witness of C6: the directory holds no font file; both passes end without error, the
family `Acme Sans` stays unresolved, and the run fails naming it. -/
theorem unresolved_families_fatal_witness :
    (singleOrders acmeFamily).Valid (extractFonts acmeSvg) ∧
      CheckAllFontsSet (extractFonts acmeSvg) = false ∧
      ∃ family, family ∈ (extractFonts acmeSvg).keys ∧
        ((extractFonts acmeSvg).index family).EncodedFont = [] ∧
        FindEmbedFonts (acmeOS argsPlain visitsNone) (singleOrders acmeFamily) acmeSvg "/work".toList =
          (acmeSvg, some ("No matching font file found for font-family: ".toList ++ family)) :=
  ⟨singleOrders_valid_acme, by decide,
    (unresolved_families_fatal (acmeOS argsPlain visitsNone) (singleOrders acmeFamily) acmeSvg
      "/work".toList singleOrders_valid_acme).1 (extractFonts acmeSvg) (extractFonts acmeSvg)
      (by decide) (by decide) (by decide)⟩

/-- C7. No partial output: whenever `FindEmbedFonts` returns an error, the text returned
with it is the SVG input itself. -/
theorem no_partial_output (os : OS) (ro : RangeOrders) (svg dir : Str)
    (herr : (FindEmbedFonts os ro svg dir).2 ≠ none) :
    (FindEmbedFonts os ro svg dir).1 = svg := by
  revert herr
  unfold FindEmbedFonts Embed
  repeat' split
  all_goals simp_all

/-- Witness of C7: with no font file in the directory the run fails and hands back the
input. -/
theorem no_partial_output_witness :
    (FindEmbedFonts (acmeOS argsPlain visitsNone) (singleOrders acmeFamily) acmeSvg "/work".toList).2 ≠ none ∧
      (FindEmbedFonts (acmeOS argsPlain visitsNone) (singleOrders acmeFamily) acmeSvg "/work".toList).1 =
        acmeSvg :=
  ⟨by decide, no_partial_output _ _ _ _ (by decide)⟩

/-- C8, refuted as stated: the family `M+ 1p` is resolved to the file `M+1p-regular.ttf` and
the run succeeds, but the output does not contain the name literally inside
`font-family: '...'`, nor inside quotes anywhere: the template escapes the `+` for CSS and
the rule reads `font-family: 'M\2b  1p'`. -/
theorem family_name_not_literal :
    (extractFonts mplusSvg).keys = [mplusFamily] ∧
      matchesFamily "M+1p-regular.ttf".toList mplusFamily = true ∧
      (FindEmbedFonts mplusOS (singleOrders mplusFamily) mplusSvg "/work".toList).2 = none ∧
      Contains (FindEmbedFonts mplusOS (singleOrders mplusFamily) mplusSvg "/work".toList).1
        "font-family: 'M+ 1p'".toList = false ∧
      Contains (FindEmbedFonts mplusOS (singleOrders mplusFamily) mplusSvg "/work".toList).1
        "'M+ 1p'".toList = false ∧
      Contains (FindEmbedFonts mplusOS (singleOrders mplusFamily) mplusSvg "/work".toList).1
        "font-family: 'M\\2b  1p'".toList = true := by
  decide

/-- C8, amended. For every successful run of `FindEmbedFonts` on an SVG text that contains
`</defs>`, with loops ranging over the keys of the extracted table, every family of the
table was resolved to a file: an explicit file `f` of the command line, read at its path
`p` under the directory, or a regular file of the walk at the path `p`, with the base name
`f`. The name `f` matches the family, `b` being the bytes read at `p`, the output contains
the rule of the template with the family name as the CSS escaper of the template writes it
inside `font-family: '...'` and with the Base64 text of `b` inside
`src: url('data:application/x-font-ttf;base64,...')`; that text decodes to exactly `b`. The
name is written literally when none of its characters is one the escaper replaces. -/
theorem embedding_round_trip (os : OS) (ro : RangeOrders) (svg dir out : Str)
    (hvalid : ro.Valid (extractFonts svg)) (hanchor : Contains svg "</defs>".toList = true)
    (hok : FindEmbedFonts os ro svg dir = (out, none)) :
    ∀ family ∈ (extractFonts svg).keys,
      ∃ (f p : Str) (b : List Byte), matchesFamily f family = true ∧
        ((f ∈ os.Args.drop 2 ∧ p = os.Join dir f) ∨ (Visit.file p ∈ os.Walk dir ∧ f = Split p)) ∧
        os.ReadFile p = .ok b ∧
        Contains out
          ("\n\t\t<style type=\"text/css\">\n\t\t<![CDATA[\n\t\t@font-face \x7b\n\t\t\tfont-family: '".toList ++
            cssEscaper (urlFilter family) ++
            "';\n\t\t\tsrc: url('data:application/x-font-ttf;base64,".toList ++
            EncodeToString b ++ "');\n\t\t\t\x7d\n\t\t]]>\n\t\t</style>".toList) = true ∧
        decodeStd (EncodeToString b) = some b ∧
        ((∀ c ∈ family, cssReplacementTable c = none) →
          cssEscaper (urlFilter family) = family) := by
  intro family hfamily
  obtain ⟨fonts, hk, hcheck, hsrc, hembed⟩ := success_table os ro svg dir out hvalid hok
  have hnd : fonts.keys.Nodup := hk ▸ extractFonts_nodup svg
  have hmem : family ∈ fonts.keys := hk ▸ hfamily
  have hne := (checkAllFontsSet_iff fonts hnd).mp hcheck family hmem
  obtain ⟨hfam, hsource⟩ := hsrc family hmem
  rcases hsource with hempty | ⟨p, b, hread, hmatch, henc, hfile⟩
  · exact absurd hempty hne
  · refine ⟨(fonts.index family).File, p, b, hmatch, hfile, hread, ?_, decodeStd_encode b, ?_⟩
    · have hrule : renderFont (fonts.index family) =
          ruleHead ++ cssEscaper (urlFilter family) ++ ruleMid ++ EncodeToString b ++ ruleTail := by
        unfold renderFont
        rw [hfam, henc, urlNormalizer_encode]
      have hin : family ∈ ro.embed := by
        have : ro.embed.Perm (extractFonts svg).keys := hvalid.2.2.2
        exact this.symm.subset hfamily
      have hlist : renderFont (fonts.index family) ∈ (ro.embed.map fonts.index).map renderFont :=
        List.mem_map_of_mem _ (List.mem_map_of_mem _ hin)
      obtain ⟨a1, b1, hflat⟩ := flatten_of_mem _ _ hlist
      obtain ⟨a2, b2, hrep⟩ := replaceAux_puts "</defs>".toList
        (((ro.embed.map fonts.index).map renderFont).flatten ++ templateTail) (by decide) svg
        hanchor
      rw [embed_eq, replace_one] at hembed
      have hout : out = (a2 ++ a1) ++ renderFont (fonts.index family) ++
          (b1 ++ templateTail ++ b2) := by
        have h1 := congrArg Prod.fst hembed
        simp only at h1
        rw [← h1, hrep, hflat]
        simp only [List.append_assoc]
      rw [hout, hrule]
      exact contains_of_append _ _ _
    · intro hplain
      rw [urlFilter_plain family hplain, cssEscaper_plain family hplain]

set_option maxRecDepth 20000 in
/-- Witness of C8 amended, the scenario of the specification: the directory holds only
`AcmeSans-Regular.ttf`; the output has a rule for `Acme Sans`, written literally, whose
payload is the Base64 text of that file and decodes to its bytes. -/
theorem embedding_round_trip_witness :
    (singleOrders acmeFamily).Valid (extractFonts acmeSvg) ∧
      Contains acmeSvg "</defs>".toList = true ∧
      (FindEmbedFonts (acmeOS argsPlain visitsRegular) (singleOrders acmeFamily) acmeSvg
        "/work".toList).2 = none ∧
      Contains (FindEmbedFonts (acmeOS argsPlain visitsRegular) (singleOrders acmeFamily) acmeSvg
          "/work".toList).1
        ("font-family: 'Acme Sans';\n\t\t\tsrc: url('data:application/x-font-ttf;base64,".toList ++
          EncodeToString regularBytes ++ "')".toList) = true ∧
      decodeStd (EncodeToString regularBytes) = some regularBytes ∧
      ∃ (f p : Str) (b : List Byte), matchesFamily f acmeFamily = true ∧
        ((f ∈ (acmeOS argsPlain visitsRegular).Args.drop 2 ∧
            p = (acmeOS argsPlain visitsRegular).Join "/work".toList f) ∨
          (Visit.file p ∈ (acmeOS argsPlain visitsRegular).Walk "/work".toList ∧ f = Split p)) ∧
        (acmeOS argsPlain visitsRegular).ReadFile p = .ok b ∧
        Contains (FindEmbedFonts (acmeOS argsPlain visitsRegular) (singleOrders acmeFamily)
            acmeSvg "/work".toList).1
          ("\n\t\t<style type=\"text/css\">\n\t\t<![CDATA[\n\t\t@font-face \x7b\n\t\t\tfont-family: '".toList ++
            cssEscaper (urlFilter acmeFamily) ++
            "';\n\t\t\tsrc: url('data:application/x-font-ttf;base64,".toList ++
            EncodeToString b ++ "');\n\t\t\t\x7d\n\t\t]]>\n\t\t</style>".toList) = true ∧
        decodeStd (EncodeToString b) = some b ∧
        ((∀ c ∈ acmeFamily, cssReplacementTable c = none) →
          cssEscaper (urlFilter acmeFamily) = acmeFamily) :=
  ⟨singleOrders_valid_acme, by decide, by decide, by decide, by decide,
    embedding_round_trip (acmeOS argsPlain visitsRegular) (singleOrders acmeFamily) acmeSvg
      "/work".toList _ singleOrders_valid_acme (by decide) (by decide) acmeFamily (by decide)⟩

/-- C9. Generic keyword filter: the keys of the extracted table are exactly the trimmed
values of the matches that differ from `sans-serif` and from `serif`; so neither name is
ever a key, while `Serif` and `Arial, sans-serif` are kept as families. -/
theorem generic_keyword_filter (svg : Str) :
    "serif".toList ∉ (extractFonts svg).keys ∧ "sans-serif".toList ∉ (extractFonts svg).keys ∧
      (∀ k : Str, k ∈ (extractFonts svg).keys ↔
        ∃ m ∈ FindAllStringSubmatch svg, Trim m " '\"\t\n\r".toList = k ∧
          k ≠ "sans-serif".toList ∧ k ≠ "serif".toList) ∧
      (extractFonts "font-family: Serif; font-family: 'Arial, sans-serif';".toList).keys =
        ["Serif".toList, "Arial, sans-serif".toList] ∧
      (extractFonts "font-family: serif; font-family: 'sans-serif';".toList).keys = [] := by
  have hiff : ∀ k : Str, k ∈ (extractFonts svg).keys ↔
      ∃ m ∈ FindAllStringSubmatch svg, Trim m " '\"\t\n\r".toList = k ∧
        k ≠ "sans-serif".toList ∧ k ≠ "serif".toList := by
    intro k
    unfold extractFonts
    rw [mem_keys_foldl_extractStep]
    simp [FontMap.keys]
  refine ⟨?_, ?_, hiff, by decide, by decide⟩
  · intro h
    obtain ⟨_, _, _, _, h2⟩ := (hiff _).mp h
    exact h2 rfl
  · intro h
    obtain ⟨_, _, _, h2, _⟩ := (hiff _).mp h
    exact h2 rfl

/-- C10, refuted as stated, on both counts. White space: `Acme<TAB>Sans` and `Acme Sans`
differ only in their internal white space, yet the file `AcmeSans.ttf` matches the second
and not the first, since only blanks are removed. Letter case: the family `ΣΟΦΟΣ` is the
family `σοφος` in capitals (the capital of the final sigma `ς` is `Σ`), yet the file
`σοφος.ttf` matches `σοφος` and not `ΣΟΦΟΣ`, since `strings.ToLower` maps `Σ` to `σ`, not to
`ς`. -/
theorem match_tab_counterexample :
    "Acme\tSans".toList.filter (fun c => !c.isWhitespace) =
        "Acme Sans".toList.filter (fun c => !c.isWhitespace) ∧
      matchesFamily "AcmeSans.ttf".toList "Acme Sans".toList = true ∧
      matchesFamily "AcmeSans.ttf".toList "Acme\tSans".toList = false ∧
      ToLower "ΣΟΦΟΣ".toList = "σοφοσ".toList ∧
      ToLower "σοφος".toList = "σοφος".toList ∧
      matchesFamily "σοφος.ttf".toList "σοφος".toList = true ∧
      matchesFamily "σοφος.ttf".toList "ΣΟΦΟΣ".toList = false := by
  decide

/-- C10, amended. The match test gives the same answer for every two family names whose
texts without blanks (U+0020) have the same image under `strings.ToLower`, and for every
two file names with the same image under `strings.ToLower`: it is invariant under every
difference in blanks and under every change of letter case that lower-casing undoes, for
letters of every script. -/
theorem match_invariance (f f2 family family2 : Str) (hfile : ToLower f = ToLower f2)
    (hfamily : ToLower (family.filter (fun c => c != ' ')) =
      ToLower (family2.filter (fun c => c != ' '))) :
    matchesFamily f family = matchesFamily f2 family2 := by
  rw [matchesFamily_eq, matchesFamily_eq, hfile, hfamily]

/-- Witness of C10 amended: names that differ in blanks and in the case of ASCII and of
other letters. -/
theorem match_invariance_witness :
    ToLower "ÉmileSans-Regular.ttf".toList = ToLower "ÉMILESANS-regular.TTF".toList ∧
      ToLower ("Émile Sans".toList.filter (fun c => c != ' ')) =
        ToLower (" é m I L e sans".toList.filter (fun c => c != ' ')) ∧
      matchesFamily "ÉmileSans-Regular.ttf".toList "Émile Sans".toList = true ∧
      matchesFamily "ÉmileSans-Regular.ttf".toList "Émile Sans".toList =
        matchesFamily "ÉMILESANS-regular.TTF".toList " é m I L e sans".toList :=
  ⟨by decide, by decide, by decide, match_invariance _ _ _ _ (by decide) (by decide)⟩

/-- C11, refuted as stated: the text `<svg><defs></defs></svg>` has no `font-family`
declaration and no font is given on the command line; the run succeeds, but the output is
not the input: the `</defs>` tag comes back between a newline and a tab on either side. -/
theorem zero_font_output_differs :
    FindAllStringSubmatch plainSvg = [] ∧
      FindEmbedFonts (dirOS argsPlain []) noOrders plainSvg "/work".toList =
        ("<svg><defs>\n\t</defs>\n\t</svg>".toList, none) ∧
      (FindEmbedFonts (dirOS argsPlain []) noOrders plainSvg "/work".toList).1 ≠ plainSvg := by
  decide

/-- C11, amended. For every SVG text in which the pattern `font-family:(.*?);` has no match,
run without explicit font files, `FindEmbedFonts` succeeds without error and whatever the
directory walk holds; its output is the input with the first `</defs>` replaced by the text
of the template after the loop, `\n\t</defs>\n\t`: no style block is inserted, the tag is
kept, white space is added around it. Without `</defs>` the output is the input. -/
theorem zero_font_document (os : OS) (ro : RangeOrders) (svg dir : Str)
    (hnone : FindAllStringSubmatch svg = []) (hargs : os.Args.length ≤ 2)
    (hvalid : ro.Valid (extractFonts svg)) :
    FindEmbedFonts os ro svg dir = (Replace svg "</defs>".toList templateTail 1, none) ∧
      (∀ W : Str → List Visit,
        FindEmbedFonts { os with Walk := W } ro svg dir = FindEmbedFonts os ro svg dir) ∧
      (∀ p s : Str, svg = p ++ "</defs>".toList ++ s → Contains p "</defs>".toList = false →
        FindEmbedFonts os ro svg dir = (p ++ "\n\t</defs>\n\t".toList ++ s, none)) ∧
      (Contains svg "</defs>".toList = false → FindEmbedFonts os ro svg dir = (svg, none)) := by
  have hfonts := extractFonts_of_no_match svg hnone
  have hembed : ro.embed = [] := by
    have h : ro.embed.Perm (extractFonts svg).keys := hvalid.2.2.2
    rw [hfonts] at h
    exact List.Perm.eq_nil h
  have hmain : ∀ os2 : OS, os2.Args.length ≤ 2 →
      FindEmbedFonts os2 ro svg dir = (Replace svg "</defs>".toList templateTail 1, none) := by
    intro os2 h2
    unfold FindEmbedFonts cmdLinePass
    rw [if_neg (Nat.not_lt.mpr h2), hfonts, hembed]
    simp only [embed_no_fonts]
    rfl
  refine ⟨hmain os hargs, ?_, ?_, ?_⟩
  · intro W
    rw [hmain os hargs, hmain { os with Walk := W } hargs]
  · intro p s hsvg hp
    rw [hmain os hargs, hsvg, replace_one]
    exact congrArg (fun x => (x, none))
      (replaceAux_first '<' "/defs>".toList _ p s (by decide) hp)
  · intro hno
    rw [hmain os hargs, replace_one, replaceAux_absent _ _ _ _ hno]

/-- Witness of C11 amended. -/
theorem zero_font_document_witness :
    FindAllStringSubmatch plainSvg = [] ∧ (dirOS argsPlain []).Args.length ≤ 2 ∧
      noOrders.Valid (extractFonts plainSvg) ∧
      FindEmbedFonts (dirOS argsPlain []) noOrders plainSvg "/work".toList =
        (Replace plainSvg "</defs>".toList templateTail 1, none) :=
  ⟨by decide, by decide, ⟨fun _ => List.Perm.refl _, fun _ => List.Perm.refl _,
      List.Perm.refl _, List.Perm.refl _⟩,
    (zero_font_document (dirOS argsPlain []) noOrders plainSvg "/work".toList (by decide)
      (by decide) ⟨fun _ => List.Perm.refl _, fun _ => List.Perm.refl _,
        List.Perm.refl _, List.Perm.refl _⟩).1⟩

/-- C12. Missing explicit file: when the explicit font files are `pre ++ name :: post` and
`name` does not exist under the base directory, `ProcessCmdLineFonts` returns an error; when
the files before `name` are processed without error, that error is the not-found error of
`os.Stat` for `name`, returned with the table as those files left it, whether or not any
family matches `name`. `FindEmbedFonts` then fails with `Error processing command line
font: ` followed by the error, hands back the input, and does so whatever the directory
walk holds. -/
theorem missing_explicit_file (os : OS) (ro : RangeOrders) (svg dir : Str) (pre post : List Str)
    (name e : Str) (hargs : os.Args.drop 2 = pre ++ name :: post)
    (hstat : os.Stat (os.Join dir name) = some e) :
    (∀ (ord : Nat → List Str) (fm : FontMap),
        (ProcessCmdLineFonts os ord fm (pre ++ name :: post) dir).2 ≠ none ∧
        ((ProcessCmdLineFonts os ord fm pre dir).2 = none →
          ProcessCmdLineFonts os ord fm (pre ++ name :: post) dir =
            ((ProcessCmdLineFonts os ord fm pre dir).1, some e))) ∧
      (∃ err, FindEmbedFonts os ro svg dir =
        (svg, some ("Error processing command line font: ".toList ++ err))) ∧
      (∀ W : Str → List Visit,
        FindEmbedFonts { os with Walk := W } ro svg dir = FindEmbedFonts os ro svg dir) := by
  have hproc : ∀ (ord : Nat → List Str) (fm : FontMap),
      (ProcessCmdLineFonts os ord fm (pre ++ name :: post) dir).2 ≠ none ∧
      ((ProcessCmdLineFonts os ord fm pre dir).2 = none →
        ProcessCmdLineFonts os ord fm (pre ++ name :: post) dir =
          ((ProcessCmdLineFonts os ord fm pre dir).1, some e)) := by
    intro ord fm
    unfold ProcessCmdLineFonts
    rw [cmdLineFrom_append]
    cases hpre : cmdLineFrom os ord dir 0 pre fm with
    | mk fm1 e1 =>
      cases e1 with
      | some err => simp
      | none => simp [cmdLineFrom_missing os ord dir _ name post fm1 e hstat]
  have hlen : os.Args.length > 2 := by
    by_contra hle
    have : os.Args.drop 2 = [] := List.drop_eq_nil_of_le (Nat.le_of_not_lt hle)
    rw [this] at hargs
    exact absurd hargs (by simp)
  have hfail : ∀ os2 : OS, os2.Args = os.Args → os2.Join = os.Join → os2.Stat = os.Stat →
      os2.ReadFile = os.ReadFile →
      ∃ err, cmdLinePass os ro (extractFonts svg) dir = ((cmdLinePass os ro (extractFonts svg) dir).1, some err) ∧
        FindEmbedFonts os2 ro svg dir =
          (svg, some ("Error processing command line font: ".toList ++ err)) := by
    intro os2 ha hj hs hr
    have hcongr := cmdLinePass_congr os2 os ro ro ha hj hs hr rfl (extractFonts svg) dir
    have hne := (hproc ro.cmdLine (extractFonts svg)).1
    cases hc : cmdLinePass os ro (extractFonts svg) dir with
    | mk fm1 e1 =>
      cases e1 with
      | none =>
        exfalso
        apply hne
        unfold cmdLinePass at hc
        rw [if_pos hlen, hargs] at hc
        rw [hc]
      | some err =>
        refine ⟨err, rfl, ?_⟩
        unfold FindEmbedFonts
        rw [hcongr, hc]
  refine ⟨hproc, ?_, ?_⟩
  · obtain ⟨err, _, h⟩ := hfail os rfl rfl rfl rfl
    exact ⟨err, h⟩
  · intro W
    obtain ⟨err1, h1, h2⟩ := hfail os rfl rfl rfl rfl
    obtain ⟨err2, h3, h4⟩ := hfail { os with Walk := W } rfl rfl rfl rfl
    rw [h2, h4]
    rw [h1] at h3
    have := (Prod.mk.inj h3).2
    rw [Option.some.inj this]

/-- Witness of C12: `Missing.ttf` is named after the existing `AcmeSans-Bold.ttf`. -/
theorem missing_explicit_file_witness :
    (acmeOS ["svg-font-embed".toList, "in.svg".toList, "AcmeSans-Bold.ttf".toList,
          "Missing.ttf".toList] visitsBoth).Args.drop 2 =
        ["AcmeSans-Bold.ttf".toList] ++ "Missing.ttf".toList :: [] ∧
      FindEmbedFonts (acmeOS ["svg-font-embed".toList, "in.svg".toList,
          "AcmeSans-Bold.ttf".toList, "Missing.ttf".toList] visitsBoth)
          (singleOrders acmeFamily) acmeSvg "/work".toList =
        (acmeSvg, some ("Error processing command line font: ".toList ++
          "stat /work/Missing.ttf: no such file or directory".toList)) ∧
      ∃ err, FindEmbedFonts (acmeOS ["svg-font-embed".toList, "in.svg".toList,
          "AcmeSans-Bold.ttf".toList, "Missing.ttf".toList] visitsBoth)
          (singleOrders acmeFamily) acmeSvg "/work".toList =
        (acmeSvg, some ("Error processing command line font: ".toList ++ err)) :=
  ⟨by decide, by decide,
    (missing_explicit_file (acmeOS ["svg-font-embed".toList, "in.svg".toList,
        "AcmeSans-Bold.ttf".toList, "Missing.ttf".toList] visitsBoth)
      (singleOrders acmeFamily) acmeSvg "/work".toList ["AcmeSans-Bold.ttf".toList] []
      "Missing.ttf".toList "stat /work/Missing.ttf: no such file or directory".toList
      (by decide) (by decide)).2.1⟩

/-- C13. Table keys are stable: for every font table and loops that range over its keys,
`ProcessCmdLineFonts`, one call of the walk function and the whole walk leave the list of
keys as it was, also when they return an error; and the entry of every key afterwards is
the entry it had before or an entry whose `Family` field is the key. -/
theorem keys_stable (os : OS) (ord : Nat → List Str) (order : List Str) (fm : FontMap)
    (fonts : List Str) (baseDir : Str) (v : Visit)
    (hord : ∀ i, ∀ k ∈ ord i, k ∈ fm.keys) (horder : ∀ k ∈ order, k ∈ fm.keys) :
    (ProcessCmdLineFonts os ord fm fonts baseDir).1.keys = fm.keys ∧
      (genWalkFunc os order fm v).1.keys = fm.keys ∧
      (Walk os ord fm baseDir).1.keys = fm.keys ∧
      ∀ k : Str,
        ((ProcessCmdLineFonts os ord fm fonts baseDir).1.index k = fm.index k ∨
          ((ProcessCmdLineFonts os ord fm fonts baseDir).1.index k).Family = k) ∧
        ((genWalkFunc os order fm v).1.index k = fm.index k ∨
          ((genWalkFunc os order fm v).1.index k).Family = k) ∧
        ((Walk os ord fm baseDir).1.index k = fm.index k ∨
          ((Walk os ord fm baseDir).1.index k).Family = k) := by
  refine ⟨cmdLineFrom_keys os ord baseDir 0 fonts fm hord, genWalkFunc_keys os order fm v horder,
    walkFrom_keys os ord 0 (os.Walk baseDir) fm hord, fun k => ⟨?_, ?_, ?_⟩⟩
  · exact cmdLineFrom_inv (fun x => x = fm.index k ∨ x.Family = k) os ord baseDir 0 fonts fm k
      (Or.inl rfl) (fun _ _ => Or.inr rfl)
  · exact genWalkFunc_inv (fun x => x = fm.index k ∨ x.Family = k) os order fm v k
      (Or.inl rfl) (fun _ _ => Or.inr rfl)
  · exact walkFrom_inv (fun x => x = fm.index k ∨ x.Family = k) os ord 0 (os.Walk baseDir) fm k
      (Or.inl rfl) (fun _ _ => Or.inr rfl)

/-- Witness of C13: the table of `acmeSvg`, the command line naming a missing file after
`AcmeSans-Bold.ttf`, a directory with both files. -/
theorem keys_stable_witness :
    (ProcessCmdLineFonts (acmeOS argsBold visitsBoth) (fun _ => [acmeFamily])
        (extractFonts acmeSvg) ["AcmeSans-Bold.ttf".toList, "Missing.ttf".toList]
        "/work".toList).2 ≠ none ∧
      (ProcessCmdLineFonts (acmeOS argsBold visitsBoth) (fun _ => [acmeFamily])
        (extractFonts acmeSvg) ["AcmeSans-Bold.ttf".toList, "Missing.ttf".toList]
        "/work".toList).1.keys = (extractFonts acmeSvg).keys ∧
      (Walk (acmeOS argsBold visitsBoth) (fun _ => [acmeFamily]) (extractFonts acmeSvg)
        "/work".toList).1.keys = (extractFonts acmeSvg).keys :=
  have h : ∀ k ∈ [acmeFamily], k ∈ (extractFonts acmeSvg).keys := by decide
  ⟨by decide,
    (keys_stable (acmeOS argsBold visitsBoth) (fun _ => [acmeFamily]) [acmeFamily]
      (extractFonts acmeSvg) ["AcmeSans-Bold.ttf".toList, "Missing.ttf".toList] "/work".toList
      (.dir "/work".toList false) (fun _ => h) h).1,
    (keys_stable (acmeOS argsBold visitsBoth) (fun _ => [acmeFamily]) [acmeFamily]
      (extractFonts acmeSvg) ["AcmeSans-Bold.ttf".toList, "Missing.ttf".toList] "/work".toList
      (.dir "/work".toList false) (fun _ => h) h).2.2.1⟩

/-- C14, refuted as stated: backticks are not trimmed. The declaration
``font-family: `Acme`;`` gives a family name that begins and ends with a backtick. -/
theorem backtick_not_trimmed :
    (extractFonts "font-family: `Acme`;".toList).keys = ["`Acme`".toList] ∧
      "`Acme`".toList.head? = some (Char.ofNat 96) ∧
      "`Acme`".toList.getLast? = some (Char.ofNat 96) := by
  decide

/-- C14, amended. Every family name of the extracted table neither begins nor ends with a
character of the cut set of the program: blank, single quote, double quote, tab, newline,
carriage return. -/
theorem trimmed_family_names (svg : Str) (k : Str) (hk : k ∈ (extractFonts svg).keys) :
    ∀ c ∈ " '\"\t\n\r".toList, k.head? ≠ some c ∧ k.getLast? ≠ some c := by
  have hmem : ∃ m ∈ FindAllStringSubmatch svg, Trim m " '\"\t\n\r".toList = k ∧
      k ≠ "sans-serif".toList ∧ k ≠ "serif".toList := by
    unfold extractFonts at hk
    rw [mem_keys_foldl_extractStep] at hk
    simpa [FontMap.keys] using hk
  obtain ⟨m, _, hm, _⟩ := hmem
  intro c hc
  have hcut : " '\"\t\n\r".toList.contains c = true := by simpa using hc
  constructor
  · intro hhead
    rw [← hm] at hhead
    rw [trim_head _ _ c hhead] at hcut
    exact Bool.noConfusion hcut
  · intro hlast
    rw [← hm] at hlast
    rw [trim_getLast _ _ c hlast] at hcut
    exact Bool.noConfusion hcut

/-- Witness of C14 amended. -/
theorem trimmed_family_names_witness :
    acmeFamily ∈ (extractFonts acmeSvg).keys ∧
      ∀ c ∈ " '\"\t\n\r".toList, acmeFamily.head? ≠ some c ∧ acmeFamily.getLast? ≠ some c :=
  ⟨by decide, trimmed_family_names acmeSvg acmeFamily (by decide)⟩

/-- C15, refuted as stated: the value of the declaration spans two lines, has no `;` before
its end and trims to `Acme`, yet the table is empty: the `.` of the pattern does not match a
newline. -/
theorem multiline_value_not_extracted :
    Contains [] "font-family:".toList = false ∧ ';' ∉ "\nAcme".toList ∧
      Trim "\nAcme".toList " '\"\t\n\r".toList = "Acme".toList ∧
      (extractFonts ([] ++ "font-family:".toList ++ "\nAcme".toList ++ ";".toList ++ [])).keys =
        [] := by
  decide

/-- C15, amended. Extraction completeness: for every SVG text
`a ++ "font-family:" ++ v ++ ";" ++ b` where `a` contains no `font-family:` and `v` contains
neither `;` nor a newline, the trimmed value of `v` is a key of the extracted table unless
it equals `serif` or `sans-serif`. -/
theorem extraction_completeness (a v b : Str)
    (ha : Contains a "font-family:".toList = false) (hsemi : ';' ∉ v) (hnl : '\n' ∉ v)
    (hgeneric : Trim v " '\"\t\n\r".toList ≠ "sans-serif".toList ∧
      Trim v " '\"\t\n\r".toList ≠ "serif".toList) :
    Trim v " '\"\t\n\r".toList ∈
      (extractFonts (a ++ "font-family:".toList ++ v ++ ";".toList ++ b)).keys := by
  have hs : a ++ "font-family:".toList ++ v ++ ";".toList ++ b =
      a ++ (reLiteral ++ (v ++ ';' :: b)) := by
    simp [reLiteral]
  obtain ⟨rest, hrest⟩ := findAllFuel_first a v b ha hsemi hnl _ (Nat.le_refl _)
  unfold extractFonts FindAllStringSubmatch
  rw [hs, hrest, mem_keys_foldl_extractStep]
  exact Or.inr ⟨v, List.mem_cons_self _ _, rfl, hgeneric⟩

/-- Witness of C15 amended. -/
theorem extraction_completeness_witness :
    Contains "<style>".toList "font-family:".toList = false ∧ ';' ∉ " 'Acme Sans'".toList ∧
      '\n' ∉ " 'Acme Sans'".toList ∧
      Trim " 'Acme Sans'".toList " '\"\t\n\r".toList ∈
        (extractFonts ("<style>".toList ++ "font-family:".toList ++ " 'Acme Sans'".toList ++
          ";".toList ++ "</style></defs>".toList)).keys :=
  ⟨by decide, by decide, by decide,
    extraction_completeness _ _ _ (by decide) (by decide) (by decide) (by decide)⟩

/-- C16, refuted as stated, in two ways. First, the family `Acme Sans` is left unresolved
but locked by the empty explicit file `Zz-AcmeSans.ttf`; the scan ends without error, its
first matching file is `AcmeSans-Regular.ttf`, and the entry keeps the explicit file and
its empty encoding. Second, with the families `Acme` and `Acme Sans` and no explicit file,
the scan locks `Acme` at `Acme.ttf`; at `AcmeSans-Regular.ttf`, the first file that matches
`Acme Sans`, the loop meets the locked `Acme` first and returns: `Acme Sans` stays as
extracted. -/
theorem first_scan_match_skipped :
    ((cmdLinePass (zeroOS argsZero) (singleOrders acmeFamily) (extractFonts acmeSvg)
        "/work".toList).1.index acmeFamily).EncodedFont = [] ∧
      matchesFamily "AcmeSans-Regular.ttf".toList acmeFamily = true ∧
      Walk (zeroOS argsZero) (fun _ => [acmeFamily])
          (cmdLinePass (zeroOS argsZero) (singleOrders acmeFamily) (extractFonts acmeSvg)
            "/work".toList).1 "/work".toList =
        ([(acmeFamily,
            { Family := acmeFamily, CmdLineSet := true, EncodedFont := [],
              File := "Zz-AcmeSans.ttf".toList })], none) ∧
      ((extractFonts twoSvg).index acmeFamily).CmdLineSet = false ∧
      matchesFamily "Acme.ttf".toList acmeFamily = false ∧
      Walk twoOS ordersAcmeFirst.walk (extractFonts twoSvg) "/work".toList =
        (twoAfterFirst, none) ∧
      twoAfterFirst.index acmeFamily =
        { Family := acmeFamily, CmdLineSet := false, EncodedFont := [], File := [] } := by
  decide

/-- C16, amended. First scan match wins: for every family that is not locked and every scan
sequence that does not end in an error, take the first scanned regular file whose base name
matches the family. If the loop of that call ranges once over each family and the file
matches no other family that is locked when the file is met, then right after that file,
and at the end of the scan, the family's entry is locked, its `File` is the base name of
that file and its `EncodedFont` the Base64 text of the bytes of that file: no later scanned
file changes it. -/
theorem first_scan_match_wins (os : OS) (ord : Nat → List Str) (i : Nat) (pre post : List Visit)
    (q : Str) (fm : FontMap) (family : Str)
    (hunlocked : (fm.index family).CmdLineSet = false)
    (hnoerr : (walkFrom os ord i (pre ++ Visit.file q :: post) fm).2 = none)
    (hfirst : ∀ q1, Visit.file q1 ∈ pre → matchesFamily (Split q1) family = false)
    (hmatch : matchesFamily (Split q) family = true)
    (hnodup : (ord (i + pre.length)).Nodup) (hin : family ∈ ord (i + pre.length))
    (hfree : ∀ g ∈ ord (i + pre.length), g ≠ family → matchesFamily (Split q) g = true →
      ((walkFrom os ord i pre fm).1.index g).CmdLineSet = false) :
    ∃ data, os.ReadFile q = .ok data ∧
      (walkFrom os ord i (pre ++ [Visit.file q]) fm).1.index family =
        { Family := family, CmdLineSet := true, File := Split q,
          EncodedFont := EncodeToString data } ∧
      (walkFrom os ord i (pre ++ Visit.file q :: post) fm).1.index family =
        { Family := family, CmdLineSet := true, File := Split q,
          EncodedFont := EncodeToString data } := by
  have hsame := walkFrom_nomatch os ord i pre fm family
    (fun u hu hd => by
      have hfile : u = Visit.file u.p := by
        cases u with
        | file p => rfl
        | dir p err => exact Bool.noConfusion hd
      rw [hfile] at hu
      exact hfirst u.p hu)
  have hgen : genWalkFunc os (ord (i + pre.length)) (walkFrom os ord i pre fm).1 (Visit.file q) =
      walkLoop os q (Split q) (ord (i + pre.length)) (walkFrom os ord i pre fm).1 := by
    unfold genWalkFunc
    rw [if_neg (by simp [Visit.IsDir, Visit.err])]
    rfl
  rw [walkFrom_append] at hnoerr
  rw [walkFrom_append, walkFrom_append]
  cases hpre : walkFrom os ord i pre fm with
  | mk fm1 e1 =>
    rw [hpre] at hnoerr hsame hfree hgen
    cases e1 with
    | some err => simp at hnoerr
    | none =>
      simp only at hnoerr hsame hfree hgen ⊢
      rw [walkFrom, hgen] at hnoerr ⊢
      rw [walkFrom, hgen]
      cases hstep : walkLoop os q (Split q) (ord (i + pre.length)) fm1 with
      | mk fm2 e2 =>
        rw [hstep] at hnoerr
        cases e2 with
        | some err => simp at hnoerr
        | none =>
          have hall : ∀ g ∈ ord (i + pre.length), matchesFamily (Split q) g = true →
              (fm1.index g).CmdLineSet = false := by
            intro g hg hm
            by_cases hgf : g = family
            · rw [hgf, hsame]
              exact hunlocked
            · exact hfree g hg hgf hm
          obtain ⟨data, hread, hidx⟩ := walkLoop_writes os q (Split q) _ fm1 family hnodup
            hin hmatch hall (by rw [hstep])
          rw [hstep] at hidx
          simp only at hidx ⊢
          refine ⟨data, hread, ?_, ?_⟩
          · rw [walkFrom]
            exact hidx
          · rw [walkFrom_index os ord _ post fm2 family (Or.inl (by rw [hidx]))]
            exact hidx

/-- Witness of C16 amended: the scan meets `AcmeSans-Bold.ttf` first and `Acme Sans` keeps
it. -/
theorem first_scan_match_wins_witness :
    ∃ data, (acmeOS argsPlain visitsBoth).ReadFile "/work/AcmeSans-Bold.ttf".toList = .ok data ∧
      (walkFrom (acmeOS argsPlain visitsBoth) (fun _ => [acmeFamily]) 0
          ([Visit.dir "/work".toList false] ++ [Visit.file "/work/AcmeSans-Bold.ttf".toList])
          (extractFonts acmeSvg)).1.index acmeFamily =
        { Family := acmeFamily, CmdLineSet := true, File := "AcmeSans-Bold.ttf".toList,
          EncodedFont := EncodeToString data } ∧
      (walkFrom (acmeOS argsPlain visitsBoth) (fun _ => [acmeFamily]) 0
          ([Visit.dir "/work".toList false] ++ Visit.file "/work/AcmeSans-Bold.ttf".toList ::
            [Visit.file "/work/AcmeSans-Regular.ttf".toList])
          (extractFonts acmeSvg)).1.index acmeFamily =
        { Family := acmeFamily, CmdLineSet := true, File := "AcmeSans-Bold.ttf".toList,
          EncodedFont := EncodeToString data } :=
  first_scan_match_wins (acmeOS argsPlain visitsBoth) (fun _ => [acmeFamily]) 0
    [Visit.dir "/work".toList false] [Visit.file "/work/AcmeSans-Regular.ttf".toList]
    "/work/AcmeSans-Bold.ttf".toList (extractFonts acmeSvg) acmeFamily
    (by decide) (by decide) (by simp) (by decide) (by decide) (by decide) (by decide)

/-- C17, evaluated on a table with the keys `Acme` and `Acme Sans`, as the scan leaves it
after `Acme.ttf`, at the file `AcmeSans-Regular.ttf`, which matches both families. When the
loop yields `Acme Sans` first, the family gets the file; when it yields the locked `Acme`
first, the call returns at once and `Acme Sans` stays unresolved. The whole run then fails
for `Acme Sans` with the one order and succeeds with the other. -/
theorem scan_depends_on_range_order :
    (walkFrom twoOS ordersSansFirst.walk 0
        [(.dir "/work".toList false), (.file "/work/Acme.ttf".toList)]
        (extractFonts twoSvg)).1 = twoAfterFirst ∧
      twoAfterFirst.IsOrder ["Acme".toList, acmeFamily] ∧
      twoAfterFirst.IsOrder [acmeFamily, "Acme".toList] ∧
      (genWalkFunc twoOS ["Acme".toList, acmeFamily] twoAfterFirst
        (.file "/work/AcmeSans-Regular.ttf".toList)).1.index acmeFamily =
        { Family := acmeFamily, CmdLineSet := false, EncodedFont := [], File := [] } ∧
      (genWalkFunc twoOS [acmeFamily, "Acme".toList] twoAfterFirst
        (.file "/work/AcmeSans-Regular.ttf".toList)).1.index acmeFamily =
        { Family := acmeFamily, CmdLineSet := true,
          EncodedFont := EncodeToString regularBytes, File := "AcmeSans-Regular.ttf".toList } ∧
      FindEmbedFonts twoOS ordersAcmeFirst twoSvg "/work".toList =
        (twoSvg, some (noMatchError acmeFamily)) ∧
      (FindEmbedFonts twoOS ordersSansFirst twoSvg "/work".toList).2 = none := by
  decide

/-- C18, refuted as stated: with the two explicit files `AcmeSans-Bold.ttf` and
`AcmeSans-Regular.ttf`, which both match `Acme Sans`, the family ends with the `File` and
the `EncodedFont` of the second file, not of the first: the pass matches every file against
every family, resolved or not. -/
theorem explicit_files_last_wins :
    matchesFamily "AcmeSans-Bold.ttf".toList acmeFamily = true ∧
      matchesFamily "AcmeSans-Regular.ttf".toList acmeFamily = true ∧
      ProcessCmdLineFonts (acmeOS argsBold visitsBoth) (fun _ => [acmeFamily])
          (extractFonts acmeSvg)
          ["AcmeSans-Bold.ttf".toList, "AcmeSans-Regular.ttf".toList] "/work".toList =
        ([(acmeFamily,
            { Family := acmeFamily, CmdLineSet := true,
              EncodedFont := EncodeToString regularBytes,
              File := "AcmeSans-Regular.ttf".toList })], none) ∧
      EncodeToString regularBytes ≠ EncodeToString boldBytes := by
  decide

/-- C18, amended. For every list of explicit files that exist and can be read, the
command-line pass ends without error and matches each file against every family of the
table, resolved or not: a family gets `CmdLineSet = true` and the `File` and `EncodedFont`
of the last file of the list whose lower-cased name contains the family's lower-cased name
without blanks; so a single explicit file resolves every family it matches, and of two
explicit files matching one family the second is kept. A family no file matches keeps its
entry. -/
theorem last_explicit_match_wins (os : OS) (ord : Nat → List Str) (fm : FontMap)
    (baseDir : Str) (pre post : List Str) (f family : Str) (data : List Byte)
    (hexist : ∀ g ∈ pre ++ f :: post, os.Stat (os.Join baseDir g) = none ∧
      ∃ d, os.ReadFile (os.Join baseDir g) = .ok d)
    (hread : os.ReadFile (os.Join baseDir f) = .ok data)
    (hmatch : matchesFamily f family = true) (hin : family ∈ ord pre.length)
    (hlast : ∀ g ∈ post, matchesFamily g family = false) :
    (ProcessCmdLineFonts os ord fm (pre ++ f :: post) baseDir).2 = none ∧
      (ProcessCmdLineFonts os ord fm (pre ++ f :: post) baseDir).1.index family =
        { Family := family, CmdLineSet := true, File := f,
          EncodedFont := EncodeToString data } ∧
      ∀ k : Str, (∀ g ∈ pre ++ f :: post, matchesFamily g k = false) →
        (ProcessCmdLineFonts os ord fm (pre ++ f :: post) baseDir).1.index k = fm.index k := by
  refine ⟨cmdLineFrom_ok os ord baseDir 0 _ fm hexist, ?_,
    fun k hk => cmdLineFrom_nomatch os ord baseDir 0 _ fm k hk⟩
  unfold ProcessCmdLineFonts
  rw [cmdLineFrom_append]
  have hpreok := cmdLineFrom_ok os ord baseDir 0 pre fm
    (fun g hg => hexist g (List.mem_append_left _ hg))
  cases hpre : cmdLineFrom os ord baseDir 0 pre fm with
  | mk fm1 e1 =>
    rw [hpre] at hpreok
    simp only at hpreok
    subst hpreok
    simp only [Nat.zero_add]
    have hstat := (hexist f (List.mem_append_right _ (List.mem_cons_self _ _))).1
    have hloopok := cmdLineLoop_ok os (os.Join baseDir f) f (ord pre.length) fm1 data hread
    have hloop := cmdLineLoop_writes os (os.Join baseDir f) f (ord pre.length) fm1 family data
      hread hmatch (Or.inl hin)
    rw [cmdLineFrom]
    simp only [hstat]
    cases hstep : cmdLineLoop os (os.Join baseDir f) f (ord pre.length) fm1 with
    | mk fm2 e2 =>
      rw [hstep] at hloopok hloop
      simp only at hloopok hloop
      subst hloopok
      simp only
      rw [cmdLineFrom_nomatch os ord baseDir _ post fm2 family hlast]
      exact hloop

/-- Witness of C18 amended: of `AcmeSans-Bold.ttf` and `AcmeSans-Regular.ttf`, given in this
order, the second is kept. -/
theorem last_explicit_match_wins_witness :
    (ProcessCmdLineFonts (acmeOS argsBold visitsBoth) (fun _ => [acmeFamily])
        (extractFonts acmeSvg)
        (["AcmeSans-Bold.ttf".toList] ++ "AcmeSans-Regular.ttf".toList :: [])
        "/work".toList).1.index acmeFamily =
      { Family := acmeFamily, CmdLineSet := true, File := "AcmeSans-Regular.ttf".toList,
        EncodedFont := EncodeToString regularBytes } :=
  (last_explicit_match_wins (acmeOS argsBold visitsBoth) (fun _ => [acmeFamily])
    (extractFonts acmeSvg) "/work".toList ["AcmeSans-Bold.ttf".toList] []
    "AcmeSans-Regular.ttf".toList acmeFamily regularBytes
    (by
      intro g hg
      simp only [List.mem_append, List.mem_singleton, List.mem_cons, List.not_mem_nil,
        or_false] at hg
      rcases hg with rfl | rfl
      · exact ⟨rfl, _, rfl⟩
      · exact ⟨rfl, _, rfl⟩)
    rfl (by decide) (by decide) (by decide)).2.1

/-- C19. Implicit invariant: in the table that extraction, `ProcessCmdLineFonts` and any
number of calls of the walk function leave, every entry with `CmdLineSet = false` has an
empty `EncodedFont`, so the test `len(fm[family].EncodedFont) > 0` of the walk function is
false whenever it is reached; consequently every error a scan of such a table returns, for
every sequence of scanned files, is an error of `ReadFile`, never the ambiguous-match
error. -/
theorem unlocked_entries_unresolved (svg : Str) (os : OS) (ord1 ord2 : Nat → List Str)
    (fonts : List Str) (dir : Str) (i : Nat) (vs : List Visit) :
    (∀ k : Str,
        ((walkFrom os ord2 i vs
          (ProcessCmdLineFonts os ord1 (extractFonts svg) fonts dir).1).1.index k).CmdLineSet =
            false →
        ((walkFrom os ord2 i vs
          (ProcessCmdLineFonts os ord1 (extractFonts svg) fonts dir).1).1.index k).EncodedFont =
            [] ∧
        ¬ ((walkFrom os ord2 i vs
          (ProcessCmdLineFonts os ord1 (extractFonts svg) fonts dir).1).1.index
            k).EncodedFont.length > 0) ∧
      (∀ (ord3 : Nat → List Str) (j : Nat) (ws : List Visit) (e : Str),
        (walkFrom os ord3 j ws (walkFrom os ord2 i vs
          (ProcessCmdLineFonts os ord1 (extractFonts svg) fonts dir).1).1).2 = some e →
        ∃ p, os.ReadFile p = .error e) ∧
      (∀ (ord3 : Nat → List Str) (baseDir e : Str),
        (Walk os ord3 (ProcessCmdLineFonts os ord1 (extractFonts svg) fonts dir).1 baseDir).2 =
          some e →
        ∃ p, os.ReadFile p = .error e) := by
  have h0 : ∀ k, ((extractFonts svg).index k).CmdLineSet = false →
      ((extractFonts svg).index k).EncodedFont = [] := fun k _ => extractFonts_encoded svg k
  have h1 : ∀ k,
      ((ProcessCmdLineFonts os ord1 (extractFonts svg) fonts dir).1.index k).CmdLineSet = false →
      ((ProcessCmdLineFonts os ord1 (extractFonts svg) fonts dir).1.index k).EncodedFont = [] :=
    fun k => cmdLineFrom_inv (fun x => x.CmdLineSet = false → x.EncodedFont = []) os ord1 dir 0
      fonts (extractFonts svg) k (h0 k) (fun _ _ h => Bool.noConfusion h)
  have h2 : ∀ k,
      ((walkFrom os ord2 i vs
        (ProcessCmdLineFonts os ord1 (extractFonts svg) fonts dir).1).1.index k).CmdLineSet =
          false →
      ((walkFrom os ord2 i vs
        (ProcessCmdLineFonts os ord1 (extractFonts svg) fonts dir).1).1.index k).EncodedFont =
          [] :=
    fun k => walkFrom_inv (fun x => x.CmdLineSet = false → x.EncodedFont = []) os ord2 i vs _ k
      (h1 k) (fun _ _ h => Bool.noConfusion h)
  refine ⟨fun k hk => ⟨h2 k hk, ?_⟩, ?_, ?_⟩
  · rw [h2 k hk]
    simp
  · intro ord3 j ws e herr
    exact walkFrom_error os ord3 j ws _ e h2 herr
  · intro ord3 baseDir e herr
    exact walkFrom_error os ord3 0 (os.Walk baseDir) _ e h1 herr

/-- C20, refuted as stated: the first explicit file that matches `Acme Sans`,
`Zz-AcmeSans.ttf`, has zero bytes, and a second explicit file, `AcmeSans-Regular.ttf`,
matches too. The second file overwrites the entry of the first and the run succeeds. -/
theorem zero_byte_explicit_file_overwritten :
    (zeroOS argsZeroRegular).ReadFile "/work/Zz-AcmeSans.ttf".toList = .ok [] ∧
      matchesFamily "Zz-AcmeSans.ttf".toList acmeFamily = true ∧
      cmdLinePass (zeroOS argsZeroRegular) (singleOrders acmeFamily) (extractFonts acmeSvg)
          "/work".toList =
        ([(acmeFamily,
            { Family := acmeFamily, CmdLineSet := true,
              EncodedFont := EncodeToString regularBytes,
              File := "AcmeSans-Regular.ttf".toList })], none) ∧
      (FindEmbedFonts (zeroOS argsZeroRegular) (singleOrders acmeFamily) acmeSvg
        "/work".toList).2 = none :=
  ⟨rfl, by decide, by decide, by decide⟩

/-- C20, amended. Zero-byte font file. A matching explicit file with zero bytes leaves the
entry of the family locked with an empty `EncodedFont`, and so does a matching scanned file
with zero bytes that writes the entry. Once the entry of a family is locked and empty, at
the end of the command-line pass or at some point of the scan, no scanned file changes it,
even a non-empty matching one, and when the scan ends without error `FindEmbedFonts` hands
back the input with the error `No matching font file found for font-family: ` followed by
the name of a family with an empty `EncodedFont`: that family when no other is
unresolved. -/
theorem zero_byte_file_locks (os : OS) (ro : RangeOrders) (svg dir : Str)
    (fonts fmid fonts1 : FontMap) (pre post : List Visit) (family : Str)
    (hvalid : ro.Valid (extractFonts svg))
    (hcmd : cmdLinePass os ro (extractFonts svg) dir = (fonts, none))
    (hsplit : os.Walk dir = pre ++ post)
    (hpre : walkFrom os ro.walk 0 pre fonts = (fmid, none))
    (hfam : family ∈ (extractFonts svg).keys)
    (hlock : (fmid.index family).CmdLineSet = true)
    (hempty : (fmid.index family).EncodedFont = [])
    (hwalk : Walk os ro.walk fonts dir = (fonts1, none)) :
    (∀ (fm : FontMap) (f baseDir : Str) (order : List Str),
        os.ReadFile (os.Join baseDir f) = .ok [] → matchesFamily f family = true →
        family ∈ order →
        (cmdLineLoop os (os.Join baseDir f) f order fm).1.index family =
          { Family := family, CmdLineSet := true, File := f, EncodedFont := [] }) ∧
      (∀ (fm : FontMap) (q : Str) (order : List Str),
        os.ReadFile q = .ok [] →
        matchesFamily (Split q) family = true → order.Nodup → family ∈ order →
        (∀ g ∈ order, matchesFamily (Split q) g = true → (fm.index g).CmdLineSet = false) →
        (genWalkFunc os order fm (Visit.file q)).2 = none →
        (genWalkFunc os order fm (Visit.file q)).1.index family =
          { Family := family, CmdLineSet := true, File := Split q, EncodedFont := [] }) ∧
      fonts1.index family = fmid.index family ∧
      ∃ g, g ∈ fonts1.keys ∧ (fonts1.index g).EncodedFont = [] ∧
        FindEmbedFonts os ro svg dir =
          (svg, some ("No matching font file found for font-family: ".toList ++ g)) ∧
        ((∀ k ∈ fonts1.keys, (fonts1.index k).EncodedFont = [] → k = family) → g = family) := by
  obtain ⟨hvc, hvw, hvr, _⟩ := hvalid
  refine ⟨?_, ?_, ?_⟩
  · intro fm f baseDir order hread hmatch hin
    exact cmdLineLoop_writes os _ f order fm family [] hread hmatch (Or.inl hin)
  · intro fm q order hread hmatch hnodup hin hfree hnoerr
    have hgen : genWalkFunc os order fm (Visit.file q) =
        walkLoop os q (Split q) order fm := by
      unfold genWalkFunc
      rw [if_neg (by simp [Visit.IsDir, Visit.err])]
      rfl
    rw [hgen] at hnoerr ⊢
    obtain ⟨data, hread2, hidx⟩ := walkLoop_writes os q (Split q) order fm family hnodup hin
      hmatch hfree hnoerr
    have hdata : data = [] := by
      rw [hread] at hread2
      exact (Except.ok.inj hread2).symm
    rw [hidx, hdata]
    rfl
  · have hk : fonts.keys = (extractFonts svg).keys := by
      have := cmdLinePass_keys os ro (extractFonts svg) dir (fun i k hk => (hvc i).subset hk)
      rw [hcmd] at this
      exact this
    have hnd : fonts.keys.Nodup := hk ▸ extractFonts_nodup svg
    have hmono := walk_check_mono os ro.walk fonts fonts1 dir hnd
      (fun i k hmem => hk ▸ (hvw i).subset hmem) hwalk
    have hpost : walkFrom os ro.walk (0 + pre.length) post fmid = (fonts1, none) := by
      unfold Walk at hwalk
      rw [hsplit, walkFrom_append, hpre] at hwalk
      exact hwalk
    have hkeep : fonts1.index family = fmid.index family := by
      have := walkFrom_index os ro.walk (0 + pre.length) post fmid family (Or.inl hlock)
      rw [hpost] at this
      exact this
    have hmem1 : family ∈ fonts1.keys := by
      rw [hmono.1, hk]
      exact hfam
    have hnd1 : fonts1.keys.Nodup := hmono.1 ▸ hnd
    have hc1 : CheckAllFontsSet fonts1 = false := by
      cases hc : CheckAllFontsSet fonts1 with
      | false => rfl
      | true =>
        have := (checkAllFontsSet_iff fonts1 hnd1).mp hc family hmem1
        rw [hkeep] at this
        exact absurd hempty this
    have hc0 : CheckAllFontsSet fonts = false := by
      cases hc : CheckAllFontsSet fonts with
      | false => rfl
      | true =>
        rw [hmono.2 hc] at hc1
        exact Bool.noConfusion hc1
    have hrep : fonts1.IsOrder ro.report := by
      show ro.report.Perm fonts1.keys
      rw [hmono.1, hk]
      exact hvr
    obtain ⟨g, hfind, hg, hgempty⟩ := report_finds fonts1 ro.report hnd1 hrep hc1
    refine ⟨hkeep, g, hg, hgempty, ?_, fun honly => honly g hg hgempty⟩
    unfold FindEmbedFonts
    rw [hcmd]
    simp only [hc0, hwalk, hc1, hfind]
    simp [noMatchError]

/-- Witness of C20 amended. In the first run the empty `Zz-AcmeSans.ttf` is the explicit
file and the scan meets the non-empty `AcmeSans-Regular.ttf`. In the second run no font is
given: the scan meets the empty `AcmeSans-Bold.ttf`, which locks `Acme Sans`, and then the
non-empty `AcmeSans-Regular.ttf`, which is skipped. Both runs fail for `Acme Sans`. -/
theorem zero_byte_file_locks_witness :
    (cmdLinePass (zeroOS argsZero) (singleOrders acmeFamily) (extractFonts acmeSvg)
          "/work".toList = (acmeLockedEmpty, none) ∧
        Walk (zeroOS argsZero) (singleOrders acmeFamily).walk acmeLockedEmpty "/work".toList =
          (acmeLockedEmpty, none) ∧
        FindEmbedFonts (zeroOS argsZero) (singleOrders acmeFamily) acmeSvg "/work".toList =
          (acmeSvg, some "No matching font file found for font-family: Acme Sans".toList) ∧
        ∃ g, g ∈ acmeLockedEmpty.keys ∧ (acmeLockedEmpty.index g).EncodedFont = [] ∧
          FindEmbedFonts (zeroOS argsZero) (singleOrders acmeFamily) acmeSvg "/work".toList =
            (acmeSvg, some ("No matching font file found for font-family: ".toList ++ g)) ∧
          ((∀ k ∈ acmeLockedEmpty.keys, (acmeLockedEmpty.index k).EncodedFont = [] →
            k = acmeFamily) → g = acmeFamily)) ∧
      (walkFrom emptyBoldOS (singleOrders acmeFamily).walk 0
          [Visit.dir "/work".toList false, Visit.file "/work/AcmeSans-Bold.ttf".toList]
          (extractFonts acmeSvg) = (acmeScannedEmpty, none) ∧
        (genWalkFunc emptyBoldOS [acmeFamily] (extractFonts acmeSvg)
            (Visit.file "/work/AcmeSans-Bold.ttf".toList)).1.index acmeFamily =
          { Family := acmeFamily, CmdLineSet := true,
            File := Split "/work/AcmeSans-Bold.ttf".toList, EncodedFont := [] } ∧
        Walk emptyBoldOS (singleOrders acmeFamily).walk (extractFonts acmeSvg) "/work".toList =
          (acmeScannedEmpty, none) ∧
        FindEmbedFonts emptyBoldOS (singleOrders acmeFamily) acmeSvg "/work".toList =
          (acmeSvg, some "No matching font file found for font-family: Acme Sans".toList) ∧
        ∃ g, g ∈ acmeScannedEmpty.keys ∧ (acmeScannedEmpty.index g).EncodedFont = [] ∧
          FindEmbedFonts emptyBoldOS (singleOrders acmeFamily) acmeSvg "/work".toList =
            (acmeSvg, some ("No matching font file found for font-family: ".toList ++ g)) ∧
          ((∀ k ∈ acmeScannedEmpty.keys, (acmeScannedEmpty.index k).EncodedFont = [] →
            k = acmeFamily) → g = acmeFamily)) :=
  ⟨⟨by decide, by decide, by decide,
      (zero_byte_file_locks (zeroOS argsZero) (singleOrders acmeFamily) acmeSvg "/work".toList
        acmeLockedEmpty acmeLockedEmpty acmeLockedEmpty []
        ((zeroOS argsZero).Walk "/work".toList) acmeFamily singleOrders_valid_acme (by decide)
        rfl rfl (by decide) (by decide) (by decide) (by decide)).2.2.2⟩,
    ⟨by decide,
      (zero_byte_file_locks emptyBoldOS (singleOrders acmeFamily) acmeSvg "/work".toList
        (extractFonts acmeSvg) acmeScannedEmpty acmeScannedEmpty
        [Visit.dir "/work".toList false, Visit.file "/work/AcmeSans-Bold.ttf".toList]
        [Visit.file "/work/AcmeSans-Regular.ttf".toList] acmeFamily singleOrders_valid_acme
        (by decide) rfl (by decide) (by decide) (by decide) (by decide) (by decide)).2.1
        (extractFonts acmeSvg) "/work/AcmeSans-Bold.ttf".toList [acmeFamily] rfl (by decide)
        (by decide) (by decide) (by decide) (by decide),
      by decide, by decide,
      (zero_byte_file_locks emptyBoldOS (singleOrders acmeFamily) acmeSvg "/work".toList
        (extractFonts acmeSvg) acmeScannedEmpty acmeScannedEmpty
        [Visit.dir "/work".toList false, Visit.file "/work/AcmeSans-Bold.ttf".toList]
        [Visit.file "/work/AcmeSans-Regular.ttf".toList] acmeFamily singleOrders_valid_acme
        (by decide) rfl (by decide) (by decide) (by decide) (by decide) (by decide)).2.2.2⟩⟩

end SvgEmbedFont
